import Mathlib

/-!
# Verification of the wfsl-org-profile-guard evidence-sealing core

Shallow embedding of `src/seal.ts` (canonical JSON serialization, input
digests, seal attach/verify) and `src/anchor.ts` (hash-chained anchor log,
append and verify) of the `Wynergy-Fibre-Solutions/wfsl-org-profile-guard`
repository, together with proofs and refutations of the specified
properties of that code.

JavaScript strings are modelled as `List Char` / `String`, JSON-like
runtime values as the inductive `JsValue`, and the filesystem state of the
single anchor-log file as `Option (List Char)` (`none` = the file does not
exist).  Code paths that throw are modelled with `Except`.
-/

namespace WfslGuard

/-! ## Digest engine

The repository hashes with node:crypto's SHA-256 (`crypto.createHash`),
which is external to the repository.  Following the specification's
cryptographic-hash assumption ("no two distinct canonical byte strings are
assumed to collide"), the digest is modelled as an ideal collision-free
digest: an injective, computable function from strings to strings of
lowercase hexadecimal characters. -/

/-- Lowercase hexadecimal digit for a value below 16. -/
def hexDigitChar (n : Nat) : Char :=
  match n with
  | 0 => '0' | 1 => '1' | 2 => '2' | 3 => '3' | 4 => '4'
  | 5 => '5' | 6 => '6' | 7 => '7' | 8 => '8' | 9 => '9'
  | 10 => 'a' | 11 => 'b' | 12 => 'c' | 13 => 'd' | 14 => 'e'
  | _ => 'f'

/-- Numeric value of a lowercase hexadecimal digit (inverse of
`hexDigitChar` below 16). -/
def hexVal (c : Char) : Nat :=
  match c with
  | '0' => 0 | '1' => 1 | '2' => 2 | '3' => 3 | '4' => 4
  | '5' => 5 | '6' => 6 | '7' => 7 | '8' => 8 | '9' => 9
  | 'a' => 10 | 'b' => 11 | 'c' => 12 | 'd' => 13 | 'e' => 14
  | _ => 15

/-- The sixteen lowercase hexadecimal digit characters. -/
def hexChars : List Char :=
  (List.range 16).map hexDigitChar

/-- Fixed-width (six lowercase hex digits) injective encoding of one
character of the digest input; `0x10FFFF < 16^6`, so six digits suffice. -/
def charHex (c : Char) : List Char :=
  [hexDigitChar (c.toNat / 1048576 % 16), hexDigitChar (c.toNat / 65536 % 16),
   hexDigitChar (c.toNat / 4096 % 16), hexDigitChar (c.toNat / 256 % 16),
   hexDigitChar (c.toNat / 16 % 16), hexDigitChar (c.toNat % 16)]

/-- Ideal digest over a character list: the concatenation of the
fixed-width hex encodings of the characters.  Models the (external)
SHA-256 hex digest as a collision-free lowercase-hex digest. -/
def hashChars (cs : List Char) : List Char :=
  (cs.map charHex).flatten

/-- `sha256Hex` of `src/seal.ts` (and the local `hash` of
`src/anchor.ts`): hex digest of a string, modelled as an ideal
collision-free digest (see `hashChars`). -/
def sha256Hex (s : String) : String :=
  ⟨hashChars s.data⟩

/-! ## JSON string-literal encoding

`JSON.stringify` (an ECMAScript builtin, external to the repository)
encodes a string as `"` + escaped characters + `"`.  `escapeChar` models
its escaping of one character: the two-character escapes for quote,
backslash, backspace, form feed, newline, carriage return and tab, a
`\u00XX` escape for the remaining control characters, and every other
character literally. -/

def escapeChar (c : Char) : List Char :=
  if c = '"' then ['\\', '"']
  else if c = '\\' then ['\\', '\\']
  else if c = '\x08' then ['\\', 'b']
  else if c = '\x0c' then ['\\', 'f']
  else if c = '\n' then ['\\', 'n']
  else if c = '\x0d' then ['\\', 'r']
  else if c = '\t' then ['\\', 't']
  else if c.toNat < 32 then
    ['\\', 'u', '0', '0', hexDigitChar (c.toNat / 16), hexDigitChar (c.toNat % 16)]
  else [c]

/-- Escaped body of a JSON string literal. -/
def escFrag (cs : List Char) : List Char :=
  (cs.map escapeChar).flatten

/-- A complete JSON string literal: quote, escaped body, quote. -/
def quoteChars (cs : List Char) : List Char :=
  '"' :: escFrag cs ++ ['"']

/-! ### Parsing a JSON string literal

Models `JSON.parse`'s treatment of a string literal (also an external
ECMAScript builtin): characters up to the closing unescaped quote, with
the standard escapes; raw control characters are rejected. -/

/-- Numeric value of a hexadecimal digit, upper or lower case. -/
def hexValFull (c : Char) : Nat :=
  if '0' ≤ c ∧ c ≤ '9' then c.toNat - 48
  else if 'a' ≤ c ∧ c ≤ 'f' then c.toNat - 87
  else if 'A' ≤ c ∧ c ≤ 'F' then c.toNat - 55
  else 0

def isHexDigitB (c : Char) : Bool :=
  ('0' ≤ c && c ≤ '9') || ('a' ≤ c && c ≤ 'f') || ('A' ≤ c && c ≤ 'F')

/-- Decode a single-character escape (everything except `\uXXXX`). -/
def decodeSimpleEsc (e : Char) : Option Char :=
  if e = '"' then some '"'
  else if e = '\\' then some '\\'
  else if e = '/' then some '/'
  else if e = 'b' then some '\x08'
  else if e = 'f' then some '\x0c'
  else if e = 'n' then some '\n'
  else if e = 'r' then some '\x0d'
  else if e = 't' then some '\t'
  else none

/-- Parse the body of a JSON string literal (after the opening quote),
returning the decoded characters and the remaining input after the
closing quote.  Raw control characters are rejected, as `JSON.parse`
rejects them. -/
def parseStrBody : List Char → Option (List Char × List Char)
  | [] => none
  | c :: rest =>
    if c = '"' then some ([], rest)
    else if c = '\\' then
      match rest with
      | [] => none
      | e :: rest2 =>
        if e = 'u' then
          match rest2 with
          | h1 :: h2 :: h3 :: h4 :: rest3 =>
            if isHexDigitB h1 && isHexDigitB h2 && isHexDigitB h3 && isHexDigitB h4 then
              (parseStrBody rest3).map (fun p =>
                (Char.ofNat (hexValFull h1 * 4096 + hexValFull h2 * 256 +
                  hexValFull h3 * 16 + hexValFull h4) :: p.1, p.2))
            else none
          | _ => none
        else
          match decodeSimpleEsc e with
          | some d => (parseStrBody rest2).map (fun p => (d :: p.1, p.2))
          | none => none
    else if c.toNat < 32 then none
    else (parseStrBody rest).map (fun p => (c :: p.1, p.2))

/-- Parse a complete JSON string literal, opening quote included. -/
def parseStrTok : List Char → Option (List Char × List Char)
  | c :: rest => if c = '"' then parseStrBody rest else none
  | [] => none

/-! ## JSON-like runtime values

`JsValue` models the JavaScript runtime values that can reach
`canonicalJson` / `JSON.stringify` in the repository: JSON data plus
`undefined`, non-finite numbers and function values.  Numbers are
restricted to the integral values that actually occur in this code base
(`chain_index` and caller-supplied JSON).  Object fields are kept in
insertion order, as JavaScript objects enumerate string keys; JavaScript
objects never carry duplicate keys, which the well-formedness predicate
`wfB` below captures. -/

inductive JsValue where
  | null
  | undef
  | bool (b : Bool)
  | num (n : Int)
  | nan
  | inf
  | negInf
  | str (s : String)
  | arr (elems : List JsValue)
  | obj (fields : List (String × JsValue))
  | func

/-- Values representable in JSON text (the image of normalisation and of
`JSON.parse`). -/
inductive JsonValue where
  | null
  | bool (b : Bool)
  | num (n : Int)
  | str (s : String)
  | arr (xs : List JsonValue)
  | obj (kvs : List (String × JsonValue))

/-! ### `JSON.stringify` on normalised values

Emitter for `JsonValue`, modelling `JSON.stringify` (external ECMAScript
builtin) on values containing no `undefined`/function parts: no
whitespace, object members in stored order, string literals escaped by
`escapeChar`. -/

mutual

def stringifyJson : JsonValue → List Char
  | .null => "null".data
  | .bool true => "true".data
  | .bool false => "false".data
  | .num n => (toString n).data
  | .str s => quoteChars s.data
  | .arr xs => '[' :: List.intercalate [','] (stringifyJsonElems xs) ++ [']']
  | .obj kvs => '{' :: List.intercalate [','] (stringifyJsonMembers kvs) ++ ['}']

def stringifyJsonElems : List JsonValue → List (List Char)
  | [] => []
  | x :: xs => stringifyJson x :: stringifyJsonElems xs

def stringifyJsonMembers : List (String × JsonValue) → List (List Char)
  | [] => []
  | (k, v) :: kvs => (quoteChars k.data ++ ':' :: stringifyJson v) :: stringifyJsonMembers kvs

end

/-! ### Lexicographic string order

The default `.sort()` on an array of JavaScript strings compares them
lexicographically by code unit.  `listLeB`/`strLeB` model that comparison
(by codepoint, which coincides on the basic plane) as computable Boolean
relations. -/

def listLeB : List Char → List Char → Bool
  | [], _ => true
  | _ :: _, [] => false
  | a :: as, b :: bs =>
    if a.toNat < b.toNat then true
    else if b.toNat < a.toNat then false
    else listLeB as bs

def listLtB : List Char → List Char → Bool
  | [], [] => false
  | [], _ :: _ => true
  | _ :: _, [] => false
  | a :: as, b :: bs =>
    if a.toNat < b.toNat then true
    else if b.toNat < a.toNat then false
    else listLtB as bs

def strLeB (a b : String) : Bool := listLeB a.data b.data

def strLtB (a b : String) : Bool := listLtB a.data b.data

/-- Key-ordering relation used when sorting object members by the
JavaScript comparator. -/
def keyLe (p q : String × JsonValue) : Prop := strLeB p.1 q.1 = true

/-- Strict key ordering. -/
def keyLt (p q : String × JsonValue) : Prop := strLtB p.1 q.1 = true

/-- Pin-ordering relation of `[...].sort()` on strings. -/
def pinLe (a b : String) : Prop := strLeB a b = true

instance : DecidableRel keyLe := fun _ _ => instDecidableEqBool _ _

instance : DecidableRel keyLt := fun _ _ => instDecidableEqBool _ _

instance : DecidableRel pinLe := fun _ _ => instDecidableEqBool _ _

/-- The fields of a JSON object (and `[]` for any other value). -/
def objFields : JsonValue → List (String × JsonValue)
  | .obj kvs => kvs
  | _ => []

/-! ### `canonicalJson` of `src/seal.ts`

The source first sorts `Object.keys(v)` and then normalises `v[k]` for
each key in sorted order; since normalisation does not change keys and
JavaScript objects have unique keys, this equals normalising the fields
and sorting the resulting pairs by key, which is how the recursion is
organised here. -/

mutual

def normalise : JsValue → JsonValue
  | .null => .null
  | .str s => .str s
  | .bool b => .bool b
  | .num n => .num n
  | .nan => .null
  | .inf => .null
  | .negInf => .null
  | .arr xs => .arr (normaliseElems xs)
  | .obj kvs =>
    .obj (List.insertionSort keyLe (normaliseFields kvs))
  | .undef => .null
  | .func => .null

def normaliseElems : List JsValue → List JsonValue
  | [] => []
  | x :: xs => normalise x :: normaliseElems xs

def normaliseFields : List (String × JsValue) → List (String × JsonValue)
  | [] => []
  | (k, v) :: kvs => (k, normalise v) :: normaliseFields kvs

end

/-- `canonicalJson` of `src/seal.ts`: canonical JSON stringification with
stable (sorted) key ordering; `JSON.stringify(normalise(value))`. -/
def canonicalJson (value : JsValue) : String :=
  ⟨stringifyJson (normalise value)⟩

/-! ### Plain `JSON.stringify` on raw values

`src/anchor.ts` hashes `JSON.stringify(evidence)` directly (no
canonicalisation).  Model of the external builtin on `JsValue`:
`undefined`/functions are unrepresentable at the top level (`none`,
`JSON.stringify` returns `undefined`), dropped as object members, and
emitted as `null` inside arrays; non-finite numbers are emitted as
`null`; object members keep insertion order. -/

mutual

def jsonStringifyRaw : JsValue → Option (List Char)
  | .null => some "null".data
  | .undef => none
  | .func => none
  | .nan => some "null".data
  | .inf => some "null".data
  | .negInf => some "null".data
  | .bool true => some "true".data
  | .bool false => some "false".data
  | .num n => some (toString n).data
  | .str s => some (quoteChars s.data)
  | .arr xs => some ('[' :: List.intercalate [','] (rawElems xs) ++ [']'])
  | .obj kvs => some ('{' :: List.intercalate [','] (rawMembers kvs) ++ ['}'])

def rawElems : List JsValue → List (List Char)
  | [] => []
  | x :: xs => ((jsonStringifyRaw x).getD "null".data) :: rawElems xs

def rawMembers : List (String × JsValue) → List (List Char)
  | [] => []
  | (k, v) :: kvs =>
    match jsonStringifyRaw v with
    | none => rawMembers kvs
    | some sv => (quoteChars k.data ++ ':' :: sv) :: rawMembers kvs

end

/-! ## JavaScript object semantics helpers -/

/-- Own enumerable string-keyed properties, as enumerated by object
spread `{...v}` and rest destructuring: objects expose their fields,
arrays and strings expose their index properties, other values none. -/
def ownProps : JsValue → List (String × JsValue)
  | .obj kvs => kvs
  | .arr xs => xs.enum.map (fun p => (toString p.1, p.2))
  | .str s => s.data.enum.map (fun p => (toString p.1, JsValue.str ⟨[p.2]⟩))
  | _ => []

/-- Property access `v.k` for the non-index properties the sources read
(`seal`, `algorithm`, `evidence_digest`): present only on plain objects,
`undefined` (`none`) otherwise. -/
def getProp : JsValue → String → Option JsValue
  | .obj kvs, k => (kvs.find? (fun p => p.1 == k)).map (fun p => p.2)
  | _, _ => none

/-- JavaScript truthiness. -/
def truthy : JsValue → Bool
  | .null => false
  | .undef => false
  | .bool b => b
  | .num n => n != 0
  | .nan => false
  | .inf => true
  | .negInf => true
  | .str s => s != ""
  | .arr _ => true
  | .obj _ => true
  | .func => true

/-- `typeof v === "object"`. -/
def typeofObject : JsValue → Bool
  | .null => true
  | .obj _ => true
  | .arr _ => true
  | _ => false

/-- `{...base, k: v}`: later literal member overwrites in place if the
key is present (keeping its original position), otherwise appends. -/
def setProp (kvs : List (String × JsValue)) (k : String) (v : JsValue) :
    List (String × JsValue) :=
  if kvs.any (fun p => p.1 == k) then
    kvs.map (fun p => if p.1 == k then (k, v) else p)
  else kvs ++ [(k, v)]

/-- `const {k: _ignored, ...rest} = v`: all own enumerable properties
except `k`. -/
def removeProp (kvs : List (String × JsValue)) (k : String) :
    List (String × JsValue) :=
  kvs.filter (fun p => p.1 != k)

/-- Strict equality `v === s` of a possibly-absent property value against
a string. -/
def strictEqString : Option JsValue → String → Bool
  | some (.str a), s => a == s
  | _, _ => false

/-- Falsiness of a possibly-absent property value (`!v`). -/
def jsFalsyOpt : Option JsValue → Bool
  | none => true
  | some v => !truthy v

/-- Duplicate-free keys, the invariant JavaScript objects satisfy. -/
def keysNodupB : List (String × JsValue) → Bool
  | [] => true
  | (k, _) :: rest => rest.all (fun p => p.1 != k) && keysNodupB rest

mutual

/-- Well-formedness of a `JsValue` as a JavaScript runtime value: every
object layer has duplicate-free keys. -/
def wfB : JsValue → Bool
  | .arr xs => wfBElems xs
  | .obj kvs => keysNodupB kvs && wfBFields kvs
  | _ => true

def wfBElems : List JsValue → Bool
  | [] => true
  | x :: xs => wfB x && wfBElems xs

def wfBFields : List (String × JsValue) → Bool
  | [] => true
  | (_, v) :: kvs => wfB v && wfBFields kvs

end

/-! ## `src/seal.ts`: digests and seals -/

/-- `computeEvidenceDigest`: digest over the canonical serialization of
the evidence object (the caller passes it without its `seal` field). -/
def computeEvidenceDigest (evidenceWithoutSeal : JsValue) : String :=
  sha256Hex (canonicalJson evidenceWithoutSeal)

/-- The `?? null` coalescing of optional string parameters into the JSON
value placed in the payload. -/
def optStrOrNull : Option String → JsValue
  | some s => .str s
  | none => .null

/-- The typed argument of `computeInputDigest`. -/
structure InputDigestIntent where
  engine : String
  version : String
  org : String
  mode : String
  expectedPins : List String
  profileReadmeRequired : Bool
  profileReadmeRepo : Option String
  profileReadmePath : Option String

/-- `computeInputDigest` of `src/seal.ts`: deterministic digest of the
intent payload, with `expectedPins` copied and sorted
(`[...input.expectedPins].sort()`) and the optional README coordinates
coalesced to `null`. -/
def computeInputDigest (input : InputDigestIntent) : String :=
  sha256Hex (canonicalJson (.obj
    [("engine", .str input.engine),
     ("version", .str input.version),
     ("org", .str input.org),
     ("mode", .str input.mode),
     ("expectedPins", .arr
       ((List.insertionSort pinLe input.expectedPins).map JsValue.str)),
     ("profileReadme", .obj
       [("required", .bool input.profileReadmeRequired),
        ("repo", optStrOrNull input.profileReadmeRepo),
        ("path", optStrOrNull input.profileReadmePath)])]))

/-- The `SealV1` record built by `attachSeal`, as the JSON object placed
in the sealed evidence. -/
def sealRecord (inputDigest evidenceDigest : String) (previous : Option String)
    (chainIndex : Int) : JsValue :=
  .obj [("algorithm", .str "sha256"),
        ("input_digest", .str inputDigest),
        ("evidence_digest", .str evidenceDigest),
        ("previous_digest", optStrOrNull previous),
        ("chain_index", .num chainIndex)]

/-- `attachSeal` of `src/seal.ts`: `previousDigest ?? null`,
`chainIndex ?? 1`, digest of the evidence body as passed in, and
`{...evidenceWithoutSeal, seal}`. -/
def attachSeal (evidenceWithoutSeal : JsValue) (inputDigest : String)
    (previousDigest : Option String) (chainIndex : Option Int) : JsValue :=
  let previous := previousDigest
  let ci := chainIndex.getD 1
  let evidenceDigest := computeEvidenceDigest evidenceWithoutSeal
  .obj (setProp (ownProps evidenceWithoutSeal) "seal"
    (sealRecord inputDigest evidenceDigest previous ci))

/-- Result type of `verifyEvidenceObject`: `{ok, expected:
{evidence_digest}, actual: {evidence_digest}}`.  The stored digest can be
an arbitrary runtime value, the recomputed one is always a string. -/
structure SealVerifyResult where
  ok : Bool
  expected : JsValue
  actual : String

/-- `verifyEvidenceObject` of `src/seal.ts`: a total function — every
malformed input yields a structured `ok = false` result, never an
exception. -/
def verifyEvidenceObject (evidence : JsValue) : SealVerifyResult :=
  if !truthy evidence || !typeofObject evidence then ⟨false, .str "", ""⟩
  else
    match getProp evidence "seal" with
    | none => ⟨false, .str "", ""⟩
    | some sealV =>
      if !truthy sealV then ⟨false, .str "", ""⟩
      else if !strictEqString (getProp sealV "algorithm") "sha256" then ⟨false, .str "", ""⟩
      else if jsFalsyOpt (getProp sealV "evidence_digest") then ⟨false, .str "", ""⟩
      else
        let withoutSeal := JsValue.obj (removeProp (ownProps evidence) "seal")
        let recomputed := computeEvidenceDigest withoutSeal
        ⟨strictEqString (getProp sealV "evidence_digest") recomputed,
         (getProp sealV "evidence_digest").getD .undef, recomputed⟩

/-! ## JavaScript string splitting and trimming

Models of the `String.prototype.split` / `trim` builtins used by
`src/anchor.ts`, over character lists.  `split` with a one-character
separator never returns an empty array ("" splits to [""]), and a limit
argument truncates the result. -/

def splitOnChar (sep : Char) : List Char → List (List Char)
  | [] => [[]]
  | c :: rest =>
    match splitOnChar sep rest with
    | [] => [[]]
    | g :: gs => if c = sep then [] :: g :: gs else (c :: g) :: gs

/-- JavaScript whitespace as relevant to `trim` on log content. -/
def isWsB (c : Char) : Bool :=
  c = ' ' || c = '\n' || c = '\t' || c = '\x0d' || c = '\x0c' || c = '\x0b'

/-- `String.prototype.trim`: strip leading and trailing whitespace. -/
def trimChars (cs : List Char) : List Char :=
  ((cs.dropWhile isWsB).reverse.dropWhile isWsB).reverse

/-! ## `src/anchor.ts`: hash-chained anchor log -/

/-- The payload object built by `appendAnchorEntry`:
`{ts, evidence_path, evidence_hash, prev_hash}` in that insertion
order. -/
structure AnchorPayload where
  ts : String
  evidence_path : String
  evidence_hash : String
  prev_hash : String
deriving DecidableEq

/-- `JSON.stringify(payload)` for the payload record: members in
insertion order, string values escaped. -/
def stringifyPayload (p : AnchorPayload) : List Char :=
  "\x7b\"ts\":".data ++ quoteChars p.ts.data ++
  ",\"evidence_path\":".data ++ quoteChars p.evidence_path.data ++
  ",\"evidence_hash\":".data ++ quoteChars p.evidence_hash.data ++
  ",\"prev_hash\":".data ++ quoteChars p.prev_hash.data ++ "\x7d".data

/-- Consume an expected literal token from the input. -/
def eatToken : List Char → List Char → Option (List Char)
  | [], cs => some cs
  | _ :: _, [] => none
  | t :: ts, c :: cs => if c = t then eatToken ts cs else none

/-- `JSON.parse` (external ECMAScript builtin) specialised to the
payload-object shape that anchor-log lines carry — the only shape
`appendAnchorEntry` ever writes.  Inputs not of this exact shape are
rejected (`none`), as `JSON.parse` throws on every malformed prefix that
arises in the scenarios considered (truncated text, empty text, the
literal text `undefined`). -/
def parsePayload (cs : List Char) : Option AnchorPayload := do
  let cs1 ← eatToken "\x7b\"ts\":".data cs
  let (ts, cs2) ← parseStrTok cs1
  let cs3 ← eatToken ",\"evidence_path\":".data cs2
  let (ep, cs4) ← parseStrTok cs3
  let cs5 ← eatToken ",\"evidence_hash\":".data cs4
  let (eh, cs6) ← parseStrTok cs5
  let cs7 ← eatToken ",\"prev_hash\":".data cs6
  let (ph, cs8) ← parseStrTok cs7
  let cs9 ← eatToken "\x7d".data cs8
  if cs9.isEmpty then some ⟨⟨ts⟩, ⟨ep⟩, ⟨eh⟩, ⟨ph⟩⟩ else none

/-- Verification result of `verifyAnchorLog`:
`{ok, entries, error?}`. -/
structure AnchorLogVerifyResult where
  ok : Bool
  entries : Nat
  error : Option String
deriving DecidableEq

/-- `appendAnchorEntry` of `src/anchor.ts`.  The log file is modelled as
`Option (List Char)` (`none` = the file does not exist); the wall-clock
timestamp `new Date().toISOString()` is an explicit parameter `ts`.
Reads the previous hash as the first space-separated token of the last
trimmed line (the source's `?? "GENESIS"` fallback after `split` is dead
code, since `split` never yields an empty array; the defaults of
`getLastD`/`headD` below are equally unreachable), builds the payload,
and appends `hash + " " + JSON.stringify(payload)` plus a newline.
Returns the payload and the new file content; when
`JSON.stringify(evidence)` is `undefined` (top-level `undefined` or a
function value), `crypto`'s `update` throws, modelled as `.error`. -/
def appendAnchorEntry (fileContent : Option (List Char)) (ts : String)
    (evidencePath : String) (evidence : JsValue) :
    Except String (AnchorPayload × List Char) :=
  let prevHash : String :=
    match fileContent with
    | none => "GENESIS"
    | some content =>
      ⟨(splitOnChar ' ' ((splitOnChar '\n' (trimChars content)).getLastD [])).headD []⟩
  match jsonStringifyRaw evidence with
  | none => .error "TypeError: Data must be a string or a buffer"
  | some evJson =>
    let payload : AnchorPayload := ⟨ts, evidencePath, ⟨hashChars evJson⟩, prevHash⟩
    let line := hashChars (stringifyPayload payload) ++ ' ' :: stringifyPayload payload
    .ok (payload, (fileContent.getD []) ++ line ++ ['\n'])

/-- The verification loop of `verifyAnchorLog`: for each line,
`split(" ", 2)` (truncating at the second space), `JSON.parse` of the
JSON part (throwing — `.error` — when it is absent or malformed), the
chain-link check, then the recomputed-hash check, stopping at the first
failure. -/
def verifyLines : List (List Char) → Nat → List Char → Except String AnchorLogVerifyResult
  | [], i, _ => .ok ⟨true, i, none⟩
  | line :: rest, i, prev =>
    match (splitOnChar ' ' line).take 2 with
    | [] => .error "SyntaxError: Unexpected end of JSON input"
    | [_] => .error "SyntaxError: \"undefined\" is not valid JSON"
    | h :: json :: _ =>
      match parsePayload json with
      | none => .error "SyntaxError: Unexpected token in JSON"
      | some payload =>
        if payload.prev_hash.data ≠ prev then
          .ok ⟨false, i, some ("Hash chain broken at entry " ++ toString i)⟩
        else if hashChars (stringifyPayload payload) ≠ h then
          .ok ⟨false, i, some ("Entry hash mismatch at " ++ toString i)⟩
        else verifyLines rest (i + 1) h

/-- `verifyAnchorLog` of `src/anchor.ts`.  A missing log is vacuously
valid; otherwise the trimmed content is split into lines and checked by
`verifyLines` starting from the sentinel `"GENESIS"`. -/
def verifyAnchorLog (fileContent : Option (List Char)) :
    Except String AnchorLogVerifyResult :=
  match fileContent with
  | none => .ok ⟨true, 0, none⟩
  | some content => verifyLines (splitOnChar '\n' (trimChars content)) 0 "GENESIS".data

/-! ## Chained append scenarios

`chainFrom` computes the payload sequence produced by appending a list of
(timestamp, evidence path, evidence hash) triples starting from a given
previous hash; `lineFor` is the log line written for one payload;
`appendAll` folds `appendAnchorEntry` over a list of raw append
inputs. -/

def chainFrom (prev : String) : List (String × String × String) → List AnchorPayload
  | [] => []
  | (ts, ep, eh) :: rest =>
    ⟨ts, ep, eh, prev⟩ :: chainFrom ⟨hashChars (stringifyPayload ⟨ts, ep, eh, prev⟩)⟩ rest

/-- Hash of the last entry of the chain grown from `prev` by `its`. -/
def endHash (prev : String) : List (String × String × String) → String
  | [] => prev
  | (ts, ep, eh) :: rest =>
    endHash ⟨hashChars (stringifyPayload ⟨ts, ep, eh, prev⟩)⟩ rest

/-- The log line of one payload: leading hash, one space, serialized
payload. -/
def lineFor (p : AnchorPayload) : List Char :=
  hashChars (stringifyPayload p) ++ ' ' :: stringifyPayload p

def linesOf (ps : List AnchorPayload) : List (List Char) :=
  ps.map lineFor

/-- File content holding the given lines, each newline-terminated. -/
def contentOf (ls : List (List Char)) : List Char :=
  (ls.map (fun l => l ++ ['\n'])).flatten

/-- The newline-separated body of the same lines (the content without its
final newline). -/
def bodyOf : List (List Char) → List Char
  | [] => []
  | [l] => l
  | l :: ls => l ++ '\n' :: bodyOf ls

/-- Sequential appends: fold `appendAnchorEntry` over (ts, path,
evidence) inputs, threading the file content. -/
def appendAll (fileContent : Option (List Char)) :
    List (String × String × JsValue) → Except String (Option (List Char))
  | [] => .ok fileContent
  | (ts, ep, ev) :: rest => do
    let r ← appendAnchorEntry fileContent ts ep ev
    appendAll (some r.2) rest

/-- The (ts, path, evidence-hash) triples obtained from raw append inputs
by hashing each evidence's plain serialization. -/
def hashedItems (items : List (String × String × JsValue)) :
    List (String × String × String) :=
  items.map (fun x => (x.1, x.2.1, (⟨hashChars ((jsonStringifyRaw x.2.2).getD [])⟩ : String)))

/-- A line as the anchor log holds them: nonempty, newline-free, with a
non-whitespace first character and `}` as its last character. -/
def LineShaped (l : List Char) : Prop :=
  l ≠ [] ∧ '\n' ∉ l ∧ isWsB (l.headD 'x') = false ∧ l.getLastD 'x' = '}'

/-! ## Deep equality modulo mapping-key order

`KOE v w` holds when `v` and `w` are deeply equal up to reordering of
object fields: every object layer of `w` is a permutation of the
corresponding layer of `v` with deeply-equivalent values under the
matching keys. -/

mutual

inductive KOE : JsValue → JsValue → Prop where
  | null : KOE .null .null
  | undef : KOE .undef .undef
  | bool (b : Bool) : KOE (.bool b) (.bool b)
  | num (n : Int) : KOE (.num n) (.num n)
  | nan : KOE .nan .nan
  | inf : KOE .inf .inf
  | negInf : KOE .negInf .negInf
  | str (s : String) : KOE (.str s) (.str s)
  | func : KOE .func .func
  | arr {xs ys : List JsValue} : KOEList xs ys → KOE (.arr xs) (.arr ys)
  | obj {kvs mid kvs' : List (String × JsValue)} :
      KOEPairs kvs mid → mid.Perm kvs' → KOE (.obj kvs) (.obj kvs')

inductive KOEList : List JsValue → List JsValue → Prop where
  | nil : KOEList [] []
  | cons {x y : JsValue} {xs ys : List JsValue} :
      KOE x y → KOEList xs ys → KOEList (x :: xs) (y :: ys)

inductive KOEPairs : List (String × JsValue) → List (String × JsValue) → Prop where
  | nil : KOEPairs [] []
  | cons {k : String} {v w : JsValue} {ps qs : List (String × JsValue)} :
      KOE v w → KOEPairs ps qs → KOEPairs ((k, v) :: ps) ((k, w) :: qs)

end

/-! ## Input-digest payload shape

`computeInputDigest` canonicalises one fixed object shape.  The helpers
below name its parts: the sorted pin list, the object handed to
`canonicalJson`, and the canonical character stream the digest is taken
over, broken at each variable part so the stream can be dissected. -/

/-- The sorted copy `[...input.expectedPins].sort()`. -/
def sortedPins (input : InputDigestIntent) : List String :=
  List.insertionSort pinLe input.expectedPins

/-- The object literal `computeInputDigest` canonicalises. -/
def inputObj (input : InputDigestIntent) : JsValue :=
  .obj
    [("engine", .str input.engine),
     ("version", .str input.version),
     ("org", .str input.org),
     ("mode", .str input.mode),
     ("expectedPins", .arr ((sortedPins input).map JsValue.str)),
     ("profileReadme", .obj
       [("required", .bool input.profileReadmeRequired),
        ("repo", optStrOrNull input.profileReadmeRepo),
        ("path", optStrOrNull input.profileReadmePath)])]

/-- Canonical serialisation of an array of strings. -/
def strArrChars (ss : List String) : List Char :=
  '[' :: List.intercalate [','] (ss.map (fun s => quoteChars s.data)) ++ [']']

/-- Canonical serialisation of a nullable string value. -/
def optChars : Option String → List Char
  | none => "null".data
  | some s => quoteChars s.data

/-- Canonical serialisation of a boolean value. -/
def boolChars : Bool → List Char
  | true => "true".data
  | false => "false".data

/-- The canonical character stream of `inputObj`: keys in sorted order
(`engine`, `expectedPins`, `mode`, `org`, `profileReadme` with inner keys
`path`, `repo`, `required`, then `version`). -/
def inputPayloadChars (i : InputDigestIntent) : List Char :=
  '{' :: (List.intercalate [','] [
      quoteChars "engine".data ++ ':' :: quoteChars i.engine.data,
      quoteChars "expectedPins".data ++ ':' :: strArrChars (sortedPins i),
      quoteChars "mode".data ++ ':' :: quoteChars i.mode.data,
      quoteChars "org".data ++ ':' :: quoteChars i.org.data,
      quoteChars "profileReadme".data ++ ':' :: ('{' :: (List.intercalate [','] [
          quoteChars "path".data ++ ':' :: optChars i.profileReadmePath,
          quoteChars "repo".data ++ ':' :: optChars i.profileReadmeRepo,
          quoteChars "required".data ++ ':' :: boolChars i.profileReadmeRequired] ++
        ['}'])),
      quoteChars "version".data ++ ':' :: quoteChars i.version.data] ++ ['}'])

/-- The result of normalising `inputObj`: the same values with the keys
in sorted order. -/
def inputObjNorm (i : InputDigestIntent) : JsonValue :=
  .obj
    [("engine", .str i.engine),
     ("expectedPins", .arr (normaliseElems ((sortedPins i).map JsValue.str))),
     ("mode", .str i.mode),
     ("org", .str i.org),
     ("profileReadme", .obj
       [("path", normalise (optStrOrNull i.profileReadmePath)),
        ("repo", normalise (optStrOrNull i.profileReadmeRepo)),
        ("required", .bool i.profileReadmeRequired)]),
     ("version", .str i.version)]

/-- Fuelled reader of the tail of a serialised nonempty string array
(everything after the opening bracket), used to show the serialisation is
prefix-determined. -/
def parseStrArrAux : Nat → List Char → Option (List String × List Char)
  | 0, _ => none
  | fuel + 1, cs =>
    match parseStrTok cs with
    | none => none
    | some (s, rest) =>
      match rest with
      | ',' :: rest2 =>
        match parseStrArrAux fuel rest2 with
        | none => none
        | some (ss, rest3) => some (⟨s⟩ :: ss, rest3)
      | ']' :: rest2 => some ([⟨s⟩], rest2)
      | _ => none

theorem hexVal_hexDigitChar {n : Nat} (h : n < 16) : hexVal (hexDigitChar n) = n := by
  interval_cases n <;> rfl

theorem hexDigitChar_mem (n : Nat) : hexDigitChar n ∈ hexChars := by
  unfold hexDigitChar
  split <;> decide

theorem charHex_length (c : Char) : (charHex c).length = 6 := rfl

theorem char_toNat_lt (c : Char) : c.toNat < 1114112 := by
  rcases c with ⟨⟨n, _⟩, h⟩
  rcases h with h | ⟨_, h⟩
  · exact Nat.lt_trans h (by decide)
  · exact h

theorem char_eq_of_toNat_eq {c d : Char} (h : c.toNat = d.toNat) : c = d :=
  Char.ext (UInt32.ext_iff.mpr h)

theorem charHex_inj {c d : Char} (h : charHex c = charHex d) : c = d := by
  have hc := char_toNat_lt c
  have hd := char_toNat_lt d
  unfold charHex at h
  simp only [List.cons.injEq, and_true] at h
  obtain ⟨h1, h2, h3, h4, h5, h6⟩ := h
  have e1 := congrArg hexVal h1
  have e2 := congrArg hexVal h2
  have e3 := congrArg hexVal h3
  have e4 := congrArg hexVal h4
  have e5 := congrArg hexVal h5
  have e6 := congrArg hexVal h6
  rw [hexVal_hexDigitChar (Nat.mod_lt _ (by decide)),
      hexVal_hexDigitChar (Nat.mod_lt _ (by decide))] at e1 e2 e3 e4 e5 e6
  exact char_eq_of_toNat_eq (by omega)

theorem hashChars_inj : ∀ {as bs : List Char}, hashChars as = hashChars bs → as = bs := by
  intro as
  induction as with
  | nil =>
    intro bs h
    cases bs with
    | nil => rfl
    | cons b bs => simp [hashChars, charHex] at h
  | cons a as ih =>
    intro bs h
    cases bs with
    | nil => simp [hashChars, charHex] at h
    | cons b bs =>
      simp only [hashChars, List.map_cons, List.flatten] at h
      have hlen : (charHex a).length = (charHex b).length := by
        rw [charHex_length, charHex_length]
      obtain ⟨h1, h2⟩ := List.append_inj h hlen
      have ha : a = b := charHex_inj h1
      have hb : as = bs := ih (by simpa [hashChars] using h2)
      rw [ha, hb]

theorem sha256Hex_inj {s t : String} (h : sha256Hex s = sha256Hex t) : s = t := by
  apply String.ext
  exact hashChars_inj (congrArg String.data h)

theorem hashChars_mem_hexChars {cs : List Char} {c : Char} (h : c ∈ hashChars cs) :
    c ∈ hexChars := by
  simp only [hashChars, List.mem_flatten, List.mem_map] at h
  obtain ⟨l, ⟨d, _, rfl⟩, hcl⟩ := h
  unfold charHex at hcl
  simp only [List.mem_cons, List.not_mem_nil, or_false] at hcl
  rcases hcl with h | h | h | h | h | h <;> exact h ▸ hexDigitChar_mem _

theorem hexChars_ne_space {c : Char} (h : c ∈ hexChars) : c ≠ ' ' := by
  fin_cases h <;> decide

theorem hexChars_ne_newline {c : Char} (h : c ∈ hexChars) : c ≠ '\n' := by
  fin_cases h <;> decide

theorem space_not_mem_hashChars (cs : List Char) : ' ' ∉ hashChars cs := by
  intro h
  exact hexChars_ne_space (hashChars_mem_hexChars h) rfl

theorem newline_not_mem_hashChars (cs : List Char) : '\n' ∉ hashChars cs := by
  intro h
  exact hexChars_ne_newline (hashChars_mem_hexChars h) rfl

theorem hashChars_nonempty {cs : List Char} (h : cs ≠ []) : hashChars cs ≠ [] := by
  cases cs with
  | nil => exact absurd rfl h
  | cons c cs => simp [hashChars, charHex]

theorem escapeChar_ne_newline (c : Char) : '\n' ∉ escapeChar c := by
  unfold escapeChar
  split_ifs with h1 h2 h3 h4 h5 h6 h7 h8
  · decide
  · decide
  · decide
  · decide
  · decide
  · decide
  · decide
  · intro hm
    simp only [List.mem_cons, List.not_mem_nil, or_false] at hm
    rcases hm with h | h | h | h | h | h
    · exact absurd h.symm (by decide)
    · exact absurd h.symm (by decide)
    · exact absurd h.symm (by decide)
    · exact absurd h.symm (by decide)
    · exact hexChars_ne_newline (h ▸ hexDigitChar_mem _) rfl
    · exact hexChars_ne_newline (h ▸ hexDigitChar_mem _) rfl
  · intro hm
    simp only [List.mem_cons, List.not_mem_nil, or_false] at hm
    subst hm
    exact h5 rfl

theorem escapeChar_ne_space {c : Char} (hc : c ≠ ' ') : ' ' ∉ escapeChar c := by
  unfold escapeChar
  split_ifs with h1 h2 h3 h4 h5 h6 h7 h8
  · decide
  · decide
  · decide
  · decide
  · decide
  · decide
  · decide
  · intro hm
    simp only [List.mem_cons, List.not_mem_nil, or_false] at hm
    rcases hm with h | h | h | h | h | h
    · exact absurd h.symm (by decide)
    · exact absurd h.symm (by decide)
    · exact absurd h.symm (by decide)
    · exact absurd h.symm (by decide)
    · exact hexChars_ne_space (h ▸ hexDigitChar_mem _) rfl
    · exact hexChars_ne_space (h ▸ hexDigitChar_mem _) rfl
  · intro hm
    simp only [List.mem_cons, List.not_mem_nil, or_false] at hm
    exact hc hm.symm

theorem newline_not_mem_escFrag (cs : List Char) : '\n' ∉ escFrag cs := by
  intro h
  simp only [escFrag, List.mem_flatten, List.mem_map] at h
  obtain ⟨l, ⟨c, _, rfl⟩, hm⟩ := h
  exact escapeChar_ne_newline c hm

theorem space_not_mem_escFrag {cs : List Char} (h : ' ' ∉ cs) : ' ' ∉ escFrag cs := by
  intro hm
  simp only [escFrag, List.mem_flatten, List.mem_map] at hm
  obtain ⟨l, ⟨c, hc, rfl⟩, hm⟩ := hm
  exact escapeChar_ne_space (fun he => h (he ▸ hc)) hm

theorem newline_not_mem_quoteChars (cs : List Char) : '\n' ∉ quoteChars cs := by
  intro h
  simp only [quoteChars, List.mem_cons, List.mem_append, List.not_mem_nil, or_false] at h
  rcases h with (h | h) | h
  · exact absurd h (by decide)
  · exact newline_not_mem_escFrag cs h
  · exact absurd h (by decide)

theorem space_not_mem_quoteChars {cs : List Char} (h : ' ' ∉ cs) : ' ' ∉ quoteChars cs := by
  intro hm
  simp only [quoteChars, List.mem_cons, List.mem_append, List.not_mem_nil, or_false] at hm
  rcases hm with (hm | hm) | hm
  · exact absurd hm (by decide)
  · exact space_not_mem_escFrag h hm
  · exact absurd hm (by decide)

theorem isHexDigitB_hexDigitChar {n : Nat} (h : n < 16) :
    isHexDigitB (hexDigitChar n) = true := by
  interval_cases n <;> decide

theorem hexValFull_hexDigitChar {n : Nat} (h : n < 16) :
    hexValFull (hexDigitChar n) = n := by
  interval_cases n <;> decide

theorem char_ofNat_toNat {c : Char} (h : c.toNat < 55296) : Char.ofNat c.toNat = c := by
  apply char_eq_of_toNat_eq
  have hv : c.toNat.isValidChar := Or.inl h
  rw [Char.ofNat, dif_pos hv]
  rfl

theorem parseStrBody_quote (rest : List Char) : parseStrBody ('"' :: rest) = some ([], rest) := by
  rw [parseStrBody.eq_def]
  rfl

theorem parseStrBody_plain {c : Char} (hq : c ≠ '"') (hb : c ≠ '\\') (hc : ¬ c.toNat < 32)
    (rest : List Char) :
    parseStrBody (c :: rest) = (parseStrBody rest).map (fun p => (c :: p.1, p.2)) := by
  rw [parseStrBody.eq_def]
  simp only
  rw [if_neg hq, if_neg hb, if_neg hc]

theorem parseStrBody_esc_q (rest : List Char) :
    parseStrBody ('\\' :: '"' :: rest) = (parseStrBody rest).map (fun p => ('"' :: p.1, p.2)) := by
  rw [parseStrBody.eq_def]
  rfl

theorem parseStrBody_esc_bs (rest : List Char) :
    parseStrBody ('\\' :: '\\' :: rest) = (parseStrBody rest).map (fun p => ('\\' :: p.1, p.2)) := by
  rw [parseStrBody.eq_def]
  rfl

theorem parseStrBody_esc_b (rest : List Char) :
    parseStrBody ('\\' :: 'b' :: rest) = (parseStrBody rest).map (fun p => ('\x08' :: p.1, p.2)) := by
  rw [parseStrBody.eq_def]
  rfl

theorem parseStrBody_esc_f (rest : List Char) :
    parseStrBody ('\\' :: 'f' :: rest) = (parseStrBody rest).map (fun p => ('\x0c' :: p.1, p.2)) := by
  rw [parseStrBody.eq_def]
  rfl

theorem parseStrBody_esc_n (rest : List Char) :
    parseStrBody ('\\' :: 'n' :: rest) = (parseStrBody rest).map (fun p => ('\n' :: p.1, p.2)) := by
  rw [parseStrBody.eq_def]
  rfl

theorem parseStrBody_esc_r (rest : List Char) :
    parseStrBody ('\\' :: 'r' :: rest) = (parseStrBody rest).map (fun p => ('\x0d' :: p.1, p.2)) := by
  rw [parseStrBody.eq_def]
  rfl

theorem parseStrBody_esc_t (rest : List Char) :
    parseStrBody ('\\' :: 't' :: rest) = (parseStrBody rest).map (fun p => ('\t' :: p.1, p.2)) := by
  rw [parseStrBody.eq_def]
  rfl

theorem parseStrBody_uEsc {a b : Nat} (ha : a < 16) (hb : b < 16) (rest : List Char) :
    parseStrBody ('\\' :: 'u' :: '0' :: '0' :: hexDigitChar a :: hexDigitChar b :: rest) =
      (parseStrBody rest).map (fun p => (Char.ofNat (16 * a + b) :: p.1, p.2)) := by
  rw [parseStrBody.eq_def]
  simp only
  simp only [if_true]
  rw [show (isHexDigitB '0' && isHexDigitB '0' && isHexDigitB (hexDigitChar a) &&
      isHexDigitB (hexDigitChar b)) = true from by
    rw [isHexDigitB_hexDigitChar ha, isHexDigitB_hexDigitChar hb]
    rfl]
  rw [if_pos rfl]
  rw [hexValFull_hexDigitChar ha, hexValFull_hexDigitChar hb,
    show hexValFull '0' = 0 from rfl]
  have h16 : 0 * 4096 + 0 * 256 + a * 16 + b = 16 * a + b := by omega
  rw [h16]
  rw [if_neg (show ¬('\\' = '"') from by decide)]

/-- Round trip: parsing the escaped body of a string recovers exactly the
original characters and leaves the input after the closing quote. -/
theorem parseStrBody_escFrag (cs rest : List Char) :
    parseStrBody (escFrag cs ++ '"' :: rest) = some (cs, rest) := by
  induction cs with
  | nil =>
    rw [show escFrag [] = [] from rfl, List.nil_append, parseStrBody_quote]
  | cons c cs ih =>
    rw [show escFrag (c :: cs) = escapeChar c ++ escFrag cs from by simp [escFrag],
      List.append_assoc]
    unfold escapeChar
    split_ifs with h1 h2 h3 h4 h5 h6 h7 h8
    · simp only [List.cons_append, List.nil_append]
      rw [parseStrBody_esc_q, ih]
      simp [h1]
    · simp only [List.cons_append, List.nil_append]
      rw [parseStrBody_esc_bs, ih]
      simp [h2]
    · simp only [List.cons_append, List.nil_append]
      rw [parseStrBody_esc_b, ih]
      simp [h3]
    · simp only [List.cons_append, List.nil_append]
      rw [parseStrBody_esc_f, ih]
      simp [h4]
    · simp only [List.cons_append, List.nil_append]
      rw [parseStrBody_esc_n, ih]
      simp [h5]
    · simp only [List.cons_append, List.nil_append]
      rw [parseStrBody_esc_r, ih]
      simp [h6]
    · simp only [List.cons_append, List.nil_append]
      rw [parseStrBody_esc_t, ih]
      simp [h7]
    · simp only [List.cons_append, List.nil_append]
      have d1 : c.toNat / 16 < 16 := by omega
      have d2 : c.toNat % 16 < 16 := Nat.mod_lt _ (by decide)
      rw [parseStrBody_uEsc d1 d2, ih]
      have hn : 16 * (c.toNat / 16) + c.toNat % 16 = c.toNat := by omega
      rw [hn, char_ofNat_toNat (by omega)]
      rfl
    · simp only [List.cons_append, List.nil_append]
      rw [parseStrBody_plain h1 h2 (by omega) _, ih]
      rfl

/-- Round trip for a complete string literal followed by arbitrary input. -/
theorem parseStrTok_quoteChars (cs rest : List Char) :
    parseStrTok (quoteChars cs ++ rest) = some (cs, rest) := by
  show parseStrTok ('"' :: (escFrag cs ++ ['"'] ++ rest)) = _
  have h : parseStrTok ('"' :: (escFrag cs ++ ['"'] ++ rest)) =
      parseStrBody (escFrag cs ++ ['"'] ++ rest) := by
    rw [parseStrTok.eq_def]
    simp
  rw [h, List.append_assoc]
  exact parseStrBody_escFrag cs rest

/-- String literals are prefix-free: equal concatenations starting with
string literals dissect uniquely. -/
theorem quoteChars_append_inj {a b r s : List Char}
    (h : quoteChars a ++ r = quoteChars b ++ s) : a = b ∧ r = s := by
  have ha := parseStrTok_quoteChars a r
  have hb := parseStrTok_quoteChars b s
  rw [h, hb] at ha
  cases ha
  exact ⟨rfl, rfl⟩

/-! ## Splitting and trimming lemmas -/

theorem splitOnChar_ne_nil (sep : Char) (cs : List Char) : splitOnChar sep cs ≠ [] := by
  cases cs with
  | nil => simp [splitOnChar]
  | cons c rest =>
    unfold splitOnChar
    split
    · simp
    · split_ifs <;> simp

theorem splitOnChar_no_sep {sep : Char} {cs : List Char} (h : sep ∉ cs) :
    splitOnChar sep cs = [cs] := by
  induction cs with
  | nil => rfl
  | cons c rest ih =>
    have hc : c ≠ sep := fun he => h (he ▸ List.mem_cons_self c rest)
    have hr : sep ∉ rest := fun hm => h (List.mem_cons_of_mem c hm)
    unfold splitOnChar
    rw [ih hr]
    simp [hc]

theorem splitOnChar_append {sep : Char} {xs : List Char} (ys : List Char) (h : sep ∉ xs) :
    splitOnChar sep (xs ++ sep :: ys) = xs :: splitOnChar sep ys := by
  induction xs with
  | nil =>
    simp only [List.nil_append]
    rw [splitOnChar.eq_def]
    simp only
    rcases hs : splitOnChar sep ys with _ | ⟨g, gs⟩
    · exact absurd hs (splitOnChar_ne_nil sep ys)
    · simp
  | cons x xs ih =>
    have hx : x ≠ sep := fun he => h (he ▸ List.mem_cons_self x xs)
    have hr : sep ∉ xs := fun hm => h (List.mem_cons_of_mem x hm)
    simp only [List.cons_append]
    rw [splitOnChar.eq_def]
    simp only
    rw [ih hr]
    simp [hx]

theorem trimChars_shape {body : List Char} (hb : body ≠ [])
    (hh : isWsB (body.headD 'x') = false) (hl : isWsB (body.getLastD 'x') = false) :
    trimChars (body ++ ['\n']) = body := by
  rcases body with _ | ⟨c, rest⟩
  · exact absurd rfl hb
  · unfold trimChars
    simp only [List.headD_cons] at hh
    rw [List.cons_append, List.dropWhile_cons, if_neg (by simp [hh])]
    have hrev : ((c :: rest) ++ ['\n']).reverse = '\n' :: (c :: rest).reverse := by
      simp
    rw [show c :: (rest ++ ['\n']) = (c :: rest) ++ ['\n'] from rfl, hrev,
      List.dropWhile_cons, if_pos (by simp [isWsB])]
    have hlast : (c :: rest).reverse.headD 'x' = (c :: rest).getLastD 'x' := by
      rw [List.headD_eq_head?, List.head?_reverse, List.getLastD_eq_getLast?]
    rcases hrv : (c :: rest).reverse with _ | ⟨d, ds⟩
    · simp at hrv
    · have hd : isWsB d = false := by
        have := hlast
        rw [hrv] at this
        simp only [List.headD_cons] at this
        rw [this]
        exact hl
      rw [List.dropWhile_cons, if_neg (by simp [hd]), ← hrv, List.reverse_reverse]

/-! ## Payload serialization round trip -/

theorem eatToken_append (ts rest : List Char) : eatToken ts (ts ++ rest) = some rest := by
  induction ts with
  | nil => rfl
  | cons t ts ih =>
    simp only [List.cons_append]
    unfold eatToken
    rw [if_pos rfl, ih]

theorem parsePayload_stringifyPayload (p : AnchorPayload) :
    parsePayload (stringifyPayload p) = some p := by
  unfold parsePayload stringifyPayload
  simp only [List.append_assoc, Option.bind_eq_bind]
  rw [eatToken_append]
  simp only [Option.some_bind]
  rw [parseStrTok_quoteChars]
  simp only [Option.some_bind]
  rw [eatToken_append]
  simp only [Option.some_bind]
  rw [parseStrTok_quoteChars]
  simp only [Option.some_bind]
  rw [eatToken_append]
  simp only [Option.some_bind]
  rw [parseStrTok_quoteChars]
  simp only [Option.some_bind]
  rw [eatToken_append]
  simp only [Option.some_bind]
  rw [parseStrTok_quoteChars]
  simp only [Option.some_bind]
  rfl

theorem stringifyPayload_inj {p q : AnchorPayload}
    (h : stringifyPayload p = stringifyPayload q) : p = q := by
  have hp := parsePayload_stringifyPayload p
  have hq := parsePayload_stringifyPayload q
  rw [h, hq] at hp
  exact (Option.some.inj hp).symm

theorem newline_not_mem_stringifyPayload (p : AnchorPayload) :
    '\n' ∉ stringifyPayload p := by
  intro h
  simp only [stringifyPayload, List.mem_append] at h
  rcases h with ((((((((h | h) | h) | h) | h) | h) | h) | h) | h)
  · exact absurd h (by decide)
  · exact newline_not_mem_quoteChars _ h
  · exact absurd h (by decide)
  · exact newline_not_mem_quoteChars _ h
  · exact absurd h (by decide)
  · exact newline_not_mem_quoteChars _ h
  · exact absurd h (by decide)
  · exact newline_not_mem_quoteChars _ h
  · exact absurd h (by decide)

/-- Fields free of spaces make the serialized payload free of spaces
(space is the only relevant character `JSON.stringify` does not
escape). -/
theorem space_not_mem_stringifyPayload {p : AnchorPayload}
    (h1 : ' ' ∉ p.ts.data) (h2 : ' ' ∉ p.evidence_path.data)
    (h3 : ' ' ∉ p.evidence_hash.data) (h4 : ' ' ∉ p.prev_hash.data) :
    ' ' ∉ stringifyPayload p := by
  intro h
  simp only [stringifyPayload, List.mem_append] at h
  rcases h with ((((((((h | h) | h) | h) | h) | h) | h) | h) | h)
  · exact absurd h (by decide)
  · exact space_not_mem_quoteChars h1 h
  · exact absurd h (by decide)
  · exact space_not_mem_quoteChars h2 h
  · exact absurd h (by decide)
  · exact space_not_mem_quoteChars h3 h
  · exact absurd h (by decide)
  · exact space_not_mem_quoteChars h4 h
  · exact absurd h (by decide)

theorem stringifyPayload_head (p : AnchorPayload) :
    (stringifyPayload p).headD 'x' = '{' := rfl

theorem stringifyPayload_last (p : AnchorPayload) {d : Char} :
    (stringifyPayload p).getLastD d = '}' := by
  unfold stringifyPayload
  rw [show ("\x7d".data : List Char) = ['}'] from rfl]
  simp only [← List.append_assoc]
  rw [List.getLastD_concat]

theorem stringifyPayload_ne_nil (p : AnchorPayload) : stringifyPayload p ≠ [] := by
  intro h
  have h2 := stringifyPayload_head p
  rw [h] at h2
  simp only [List.headD_nil] at h2
  exact absurd h2 (by decide)

theorem chainFrom_length (prev : String) (its : List (String × String × String)) :
    (chainFrom prev its).length = its.length := by
  induction its generalizing prev with
  | nil => rfl
  | cons x rest ih =>
    rcases x with ⟨ts, ep, eh⟩
    simp [chainFrom, ih]

theorem endHash_append (prev : String) (xs ys : List (String × String × String)) :
    endHash prev (xs ++ ys) = endHash (endHash prev xs) ys := by
  induction xs generalizing prev with
  | nil => rfl
  | cons x rest ih =>
    rcases x with ⟨ts, ep, eh⟩
    simp [endHash, ih]

theorem chainFrom_append (prev : String) (xs ys : List (String × String × String)) :
    chainFrom prev (xs ++ ys) = chainFrom prev xs ++ chainFrom (endHash prev xs) ys := by
  induction xs generalizing prev with
  | nil => rfl
  | cons x rest ih =>
    rcases x with ⟨ts, ep, eh⟩
    simp [chainFrom, endHash, ih]

theorem chainFrom_getLast_hash (prev : String) (its : List (String × String × String))
    (h : its ≠ []) (hc : chainFrom prev its ≠ []) :
    (⟨hashChars (stringifyPayload ((chainFrom prev its).getLast hc))⟩ : String) =
      endHash prev its := by
  induction its generalizing prev with
  | nil => exact absurd rfl h
  | cons x rest ih =>
    rcases x with ⟨ts, ep, eh⟩
    cases rest with
    | nil => simp [chainFrom, endHash]
    | cons y rest' =>
      have hrne : y :: rest' ≠ [] := by simp
      have hcne : chainFrom (⟨hashChars (stringifyPayload ⟨ts, ep, eh, prev⟩)⟩ : String)
          (y :: rest') ≠ [] := by
        intro hnil
        have hlen := chainFrom_length
          (⟨hashChars (stringifyPayload ⟨ts, ep, eh, prev⟩)⟩ : String) (y :: rest')
        rw [hnil] at hlen
        simp at hlen
      show (⟨hashChars (stringifyPayload ((⟨ts, ep, eh, prev⟩ ::
        chainFrom (⟨hashChars (stringifyPayload ⟨ts, ep, eh, prev⟩)⟩ : String) (y :: rest')).getLast
          (by simp)))⟩ : String) = endHash prev ((ts, ep, eh) :: y :: rest')
      rw [List.getLast_cons hcne]
      exact ih _ hrne hcne

theorem lineFor_newline_free (p : AnchorPayload) : '\n' ∉ lineFor p := by
  intro h
  simp only [lineFor, List.mem_append, List.mem_cons] at h
  rcases h with h | h | h
  · exact newline_not_mem_hashChars _ h
  · exact absurd h (by decide)
  · exact newline_not_mem_stringifyPayload p h

theorem hashChars_head_not_ws (cs : List Char) (h : hashChars cs ≠ []) :
    isWsB ((hashChars cs).headD 'x') = false := by
  rcases hc : hashChars cs with _ | ⟨d, ds⟩
  · exact absurd hc h
  · have hmem : d ∈ hashChars cs := by
      rw [hc]
      exact List.mem_cons_self d ds
    have hd : d ∈ hexChars := hashChars_mem_hexChars hmem
    simp only [List.headD_cons]
    fin_cases hd <;> decide

theorem lineFor_head_not_ws (p : AnchorPayload) :
    isWsB ((lineFor p).headD 'x') = false := by
  have hne := hashChars_nonempty (stringifyPayload_ne_nil p)
  unfold lineFor
  rcases hc : hashChars (stringifyPayload p) with _ | ⟨d, ds⟩
  · exact absurd hc hne
  · have := hashChars_head_not_ws (stringifyPayload p) hne
    rw [hc] at this
    simpa using this

theorem lineFor_last (p : AnchorPayload) : (lineFor p).getLastD 'x' = '}' := by
  unfold lineFor
  rw [List.getLastD_eq_getLast?, List.getLast?_append_cons, ← List.getLastD_eq_getLast?]
  rcases hs : stringifyPayload p with _ | ⟨c, cs⟩
  · exact absurd hs (stringifyPayload_ne_nil p)
  · rw [List.getLastD_cons, ← hs]
    exact stringifyPayload_last p

theorem lineFor_ne_nil (p : AnchorPayload) : lineFor p ≠ [] := by
  simp [lineFor]

/-- First space-separated token of a line: the leading hash. -/
theorem lineFor_first_token (p : AnchorPayload) :
    (splitOnChar ' ' (lineFor p)).headD [] = hashChars (stringifyPayload p) := by
  unfold lineFor
  rw [splitOnChar_append _ (space_not_mem_hashChars _)]
  rfl

theorem contentOf_cons (l : List Char) (ls : List (List Char)) :
    contentOf (l :: ls) = l ++ '\n' :: contentOf ls := by
  simp [contentOf]

theorem contentOf_append (ls₁ ls₂ : List (List Char)) :
    contentOf (ls₁ ++ ls₂) = contentOf ls₁ ++ contentOf ls₂ := by
  simp [contentOf]

theorem contentOf_eq_body (ls : List (List Char)) (h : ls ≠ []) :
    contentOf ls = bodyOf ls ++ ['\n'] := by
  induction ls with
  | nil => exact absurd rfl h
  | cons l ls ih =>
    cases ls with
    | nil => simp [contentOf, bodyOf]
    | cons l2 ls' =>
      rw [contentOf_cons, ih (by simp),
        show bodyOf (l :: l2 :: ls') = l ++ '\n' :: bodyOf (l2 :: ls') from rfl]
      simp

theorem splitOnChar_bodyOf (ls : List (List Char)) (h : ls ≠ [])
    (hnl : ∀ l ∈ ls, '\n' ∉ l) : splitOnChar '\n' (bodyOf ls) = ls := by
  induction ls with
  | nil => exact absurd rfl h
  | cons l ls ih =>
    cases ls with
    | nil => exact splitOnChar_no_sep (hnl l (List.mem_cons_self l []))
    | cons l2 ls' =>
      rw [show bodyOf (l :: l2 :: ls') = l ++ '\n' :: bodyOf (l2 :: ls') from rfl,
        splitOnChar_append _ (hnl l (List.mem_cons_self l _)),
        ih (by simp) (fun x hx => hnl x (List.mem_cons_of_mem l hx))]

theorem getLastD_irrel {X : List Char} (h : X ≠ []) (a b : Char) :
    X.getLastD a = X.getLastD b := by
  rcases X with _ | ⟨c, cs⟩
  · exact absurd rfl h
  · rw [List.getLastD_cons, List.getLastD_cons]

theorem bodyOf_ne_nil {ls : List (List Char)} (h : ls ≠ [])
    (hne : ∀ l ∈ ls, l ≠ []) : bodyOf ls ≠ [] := by
  rcases ls with _ | ⟨l, ls⟩
  · exact absurd rfl h
  · cases ls with
    | nil => exact hne l (List.mem_cons_self l [])
    | cons l2 ls' =>
      rw [show bodyOf (l :: l2 :: ls') = l ++ '\n' :: bodyOf (l2 :: ls') from rfl]
      rcases hl : l with _ | _
      · exact absurd hl (hne l (List.mem_cons_self l _))
      · simp

theorem bodyOf_head (l : List Char) (ls : List (List Char)) (hl : l ≠ []) (d : Char) :
    (bodyOf (l :: ls)).headD d = l.headD d := by
  cases ls with
  | nil => rfl
  | cons l2 ls' =>
    rw [show bodyOf (l :: l2 :: ls') = l ++ '\n' :: bodyOf (l2 :: ls') from rfl]
    rcases l with _ | ⟨c, cs⟩
    · exact absurd rfl hl
    · rfl

theorem bodyOf_last (ls : List (List Char)) (h : ls ≠ []) (hne : ∀ l ∈ ls, l ≠ []) (d : Char) :
    (bodyOf ls).getLastD d = (ls.getLast h).getLastD d := by
  induction ls with
  | nil => exact absurd rfl h
  | cons l ls ih =>
    cases ls with
    | nil => rfl
    | cons l2 ls' =>
      rw [show bodyOf (l :: l2 :: ls') = l ++ '\n' :: bodyOf (l2 :: ls') from rfl,
        List.getLastD_eq_getLast?, List.getLast?_append_cons, ← List.getLastD_eq_getLast?,
        List.getLastD_cons,
        getLastD_irrel (bodyOf_ne_nil (by simp)
          (fun x hx => hne x (List.mem_cons_of_mem l hx))) '\n' d,
        ih (by simp) (fun x hx => hne x (List.mem_cons_of_mem l hx)),
        show (l :: l2 :: ls').getLast h = (l2 :: ls').getLast (by simp) from
          List.getLast_cons (by simp)]

theorem linesOf_ne_nil {ps : List AnchorPayload} (h : ps ≠ []) : linesOf ps ≠ [] := by
  rcases ps with _ | ⟨p, ps⟩
  · exact absurd rfl h
  · simp [linesOf]

theorem linesOf_newline_free (ps : List AnchorPayload) : ∀ l ∈ linesOf ps, '\n' ∉ l := by
  intro l hl
  simp only [linesOf, List.mem_map] at hl
  obtain ⟨p, _, rfl⟩ := hl
  exact lineFor_newline_free p

theorem linesOf_all_ne_nil (ps : List AnchorPayload) : ∀ l ∈ linesOf ps, l ≠ [] := by
  intro l hl
  simp only [linesOf, List.mem_map] at hl
  obtain ⟨p, _, rfl⟩ := hl
  exact lineFor_ne_nil p

theorem lineShaped_hashLine (q p' : AnchorPayload) :
    LineShaped (hashChars (stringifyPayload q) ++ ' ' :: stringifyPayload p') := by
  refine ⟨by simp, ?_, ?_, ?_⟩
  · intro h
    simp only [List.mem_append, List.mem_cons] at h
    rcases h with h | h | h
    · exact newline_not_mem_hashChars _ h
    · exact absurd h (by decide)
    · exact newline_not_mem_stringifyPayload p' h
  · have hne := hashChars_nonempty (stringifyPayload_ne_nil q)
    rcases hc : hashChars (stringifyPayload q) with _ | ⟨d, ds⟩
    · exact absurd hc hne
    · have := hashChars_head_not_ws (stringifyPayload q) hne
      rw [hc] at this
      simpa using this
  · rw [List.getLastD_eq_getLast?, List.getLast?_append_cons, ← List.getLastD_eq_getLast?]
    rcases hs : stringifyPayload p' with _ | ⟨c, cs⟩
    · exact absurd hs (stringifyPayload_ne_nil p')
    · rw [List.getLastD_cons, ← hs]
      exact stringifyPayload_last p'

theorem lineShaped_lineFor (p : AnchorPayload) : LineShaped (lineFor p) :=
  lineShaped_hashLine p p

/-- Trimming and splitting content built from well-shaped lines recovers
exactly the lines. -/
theorem split_trim_contentOf_general (ls : List (List Char)) (h : ls ≠ [])
    (hl : ∀ l ∈ ls, LineShaped l) :
    splitOnChar '\n' (trimChars (contentOf ls)) = ls := by
  have hne : ∀ l ∈ ls, l ≠ [] := fun l hm => (hl l hm).1
  have hnl : ∀ l ∈ ls, '\n' ∉ l := fun l hm => (hl l hm).2.1
  rw [contentOf_eq_body _ h]
  rw [trimChars_shape (bodyOf_ne_nil h hne) ?hh ?hl]
  · exact splitOnChar_bodyOf _ h hnl
  case hh =>
    rcases hls : ls with _ | ⟨l, ls'⟩
    · exact absurd hls h
    · rw [bodyOf_head _ _ (hne l (hls ▸ List.mem_cons_self l ls'))]
      exact (hl l (hls ▸ List.mem_cons_self l ls')).2.2.1
  case hl =>
    rw [bodyOf_last _ h hne]
    have hmem := List.getLast_mem h
    rw [(hl _ hmem).2.2.2]
    decide

/-- Trimming and splitting the content of a line list recovers exactly
the lines. -/
theorem split_trim_contentOf (ps : List AnchorPayload) (h : ps ≠ []) :
    splitOnChar '\n' (trimChars (contentOf (linesOf ps))) = linesOf ps := by
  apply split_trim_contentOf_general _ (linesOf_ne_nil h)
  intro l hm
  simp only [linesOf, List.mem_map] at hm
  obtain ⟨p, _, rfl⟩ := hm
  exact lineShaped_lineFor p

/-- The leading hash token of the last line of chained content. -/
theorem prevToken_contentOf (ps : List AnchorPayload) (hne : ps ≠ []) :
    (splitOnChar ' '
      ((splitOnChar '\n' (trimChars (contentOf (linesOf ps)))).getLastD [])).headD [] =
      hashChars (stringifyPayload (ps.getLast hne)) := by
  rw [split_trim_contentOf ps hne]
  have hmap : (linesOf ps).getLastD [] = lineFor (ps.getLast hne) := by
    rw [List.getLastD_eq_getLast?, show linesOf ps = ps.map lineFor from rfl,
      List.getLast?_map, List.getLast?_eq_getLast _ hne]
    rfl
  rw [hmap, lineFor_first_token]

/-! ## Evaluating the verification loop -/

/-- One step of `verifyLines` on a line of the canonical
`hash ++ " " ++ serialized payload` shape with a space-free JSON part. -/
theorem verifyLines_cons_parsed (h : List Char) (hh : ' ' ∉ h) (p' : AnchorPayload)
    (hsp : ' ' ∉ stringifyPayload p') (rest : List (List Char)) (i : Nat) (prev : List Char) :
    verifyLines ((h ++ ' ' :: stringifyPayload p') :: rest) i prev =
      if p'.prev_hash.data ≠ prev then
        .ok ⟨false, i, some ("Hash chain broken at entry " ++ toString i)⟩
      else if hashChars (stringifyPayload p') ≠ h then
        .ok ⟨false, i, some ("Entry hash mismatch at " ++ toString i)⟩
      else verifyLines rest (i + 1) h := by
  rw [verifyLines.eq_def]
  simp only
  rw [splitOnChar_append _ hh, splitOnChar_no_sep hsp,
    show (h :: [stringifyPayload p']).take 2 = [h, stringifyPayload p'] from rfl]
  simp only
  rw [parsePayload_stringifyPayload]

/-- One step of `verifyLines` on an untampered line. -/
theorem verifyLines_lineFor_cons (p : AnchorPayload) (rest : List (List Char)) (i : Nat)
    (prev : List Char) (hsp : ' ' ∉ stringifyPayload p) :
    verifyLines (lineFor p :: rest) i prev =
      if p.prev_hash.data ≠ prev then
        .ok ⟨false, i, some ("Hash chain broken at entry " ++ toString i)⟩
      else verifyLines rest (i + 1) (hashChars (stringifyPayload p)) := by
  rw [show lineFor p = hashChars (stringifyPayload p) ++ ' ' :: stringifyPayload p from rfl,
    verifyLines_cons_parsed _ (space_not_mem_hashChars _) _ hsp]
  by_cases h1 : p.prev_hash.data = prev
  · simp [h1]
  · simp [h1]

/-- Walking the verification loop down untampered chained lines: every
check passes and the loop proceeds to the tail with the chain's end hash
and the line count added. -/
theorem verifyLines_chain (its : List (String × String × String)) (prev : String)
    (i : Nat) (tail : List (List Char))
    (hsp : ∀ x ∈ its, ' ' ∉ x.1.data ∧ ' ' ∉ x.2.1.data ∧ ' ' ∉ x.2.2.data)
    (hprev : ' ' ∉ prev.data) :
    verifyLines (linesOf (chainFrom prev its) ++ tail) i prev.data =
      verifyLines tail (i + its.length) (endHash prev its).data := by
  induction its generalizing prev i with
  | nil => simp [linesOf, chainFrom, endHash]
  | cons x rest ih =>
    rcases x with ⟨ts, ep, eh⟩
    obtain ⟨h1, h2, h3⟩ := hsp _ (List.mem_cons_self _ _)
    have hspp : ' ' ∉ stringifyPayload ⟨ts, ep, eh, prev⟩ :=
      space_not_mem_stringifyPayload h1 h2 h3 hprev
    rw [show linesOf (chainFrom prev ((ts, ep, eh) :: rest)) =
      lineFor ⟨ts, ep, eh, prev⟩ ::
        linesOf (chainFrom (⟨hashChars (stringifyPayload ⟨ts, ep, eh, prev⟩)⟩ : String) rest)
      from rfl]
    rw [List.cons_append, verifyLines_lineFor_cons _ _ _ _ hspp]
    rw [if_neg (show ¬((⟨ts, ep, eh, prev⟩ : AnchorPayload).prev_hash.data ≠ prev.data)
      from fun hne => hne rfl)]
    have hprev' : ' ' ∉ (⟨hashChars (stringifyPayload ⟨ts, ep, eh, prev⟩)⟩ : String).data :=
      space_not_mem_hashChars _
    have hstep := ih (⟨hashChars (stringifyPayload ⟨ts, ep, eh, prev⟩)⟩ : String) (i + 1)
      (fun x hx => hsp x (List.mem_cons_of_mem _ hx)) hprev'
    rw [show hashChars (stringifyPayload ⟨ts, ep, eh, prev⟩) =
      (⟨hashChars (stringifyPayload ⟨ts, ep, eh, prev⟩)⟩ : String).data from rfl]
    rw [hstep]
    have harith : i + 1 + rest.length = i + ((ts, ep, eh) :: rest).length := by
      simp
      omega
    rw [harith]
    rfl

/-! ## Evaluating appends -/

theorem appendAnchorEntry_none_eq (ts ep : String) (ev : JsValue) (evJson : List Char)
    (hev : jsonStringifyRaw ev = some evJson) :
    appendAnchorEntry none ts ep ev =
      .ok (⟨ts, ep, ⟨hashChars evJson⟩, "GENESIS"⟩,
        contentOf (linesOf [⟨ts, ep, ⟨hashChars evJson⟩, "GENESIS"⟩])) := by
  unfold appendAnchorEntry
  rw [hev]
  simp [contentOf, linesOf, lineFor]

theorem appendAnchorEntry_existing_eq (ps : List AnchorPayload) (hne : ps ≠ [])
    (ts ep : String) (ev : JsValue) (evJson : List Char)
    (hev : jsonStringifyRaw ev = some evJson) :
    appendAnchorEntry (some (contentOf (linesOf ps))) ts ep ev =
      .ok (⟨ts, ep, ⟨hashChars evJson⟩, ⟨hashChars (stringifyPayload (ps.getLast hne))⟩⟩,
        contentOf (linesOf (ps ++
          [⟨ts, ep, ⟨hashChars evJson⟩, ⟨hashChars (stringifyPayload (ps.getLast hne))⟩⟩]))) := by
  unfold appendAnchorEntry
  rw [hev]
  simp only
  rw [prevToken_contentOf ps hne]
  refine congrArg Except.ok (congrArg (Prod.mk _) ?_)
  simp [contentOf, linesOf, lineFor, List.append_assoc]

theorem getLast_concat_payload (ps : List AnchorPayload) (p : AnchorPayload)
    (h : ps ++ [p] ≠ []) : (ps ++ [p]).getLast h = p := by
  have hc := List.getLast?_concat (l := ps) (a := p)
  rw [List.getLast?_eq_getLast _ h] at hc
  exact Option.some.inj hc

theorem appendAll_existing (items : List (String × String × JsValue))
    (hev : ∀ x ∈ items, (jsonStringifyRaw x.2.2).isSome) :
    ∀ (ps : List AnchorPayload) (hne : ps ≠ []),
    appendAll (some (contentOf (linesOf ps))) items =
      .ok (some (contentOf (linesOf (ps ++
        chainFrom (⟨hashChars (stringifyPayload (ps.getLast hne))⟩ : String)
          (hashedItems items))))) := by
  induction items with
  | nil =>
    intro ps hne
    simp [appendAll, hashedItems, chainFrom]
  | cons x rest ih =>
    rcases x with ⟨ts, ep, ev⟩
    intro ps hne
    have hx := hev _ (List.mem_cons_self _ _)
    rw [Option.isSome_iff_exists] at hx
    obtain ⟨evJson, hevJson⟩ := hx
    have hevJson' : jsonStringifyRaw ev = some evJson := hevJson
    show (appendAnchorEntry (some (contentOf (linesOf ps))) ts ep ev).bind
      (fun r => appendAll (some r.2) rest) = _
    rw [appendAnchorEntry_existing_eq ps hne ts ep ev evJson hevJson']
    show appendAll (some (contentOf (linesOf (ps ++
      [⟨ts, ep, ⟨hashChars evJson⟩, ⟨hashChars (stringifyPayload (ps.getLast hne))⟩⟩])))) rest = _
    rw [ih (fun x hx => hev x (List.mem_cons_of_mem _ hx)) _ (by simp)]
    refine congrArg Except.ok (congrArg some (congrArg contentOf (congrArg linesOf ?_)))
    rw [getLast_concat_payload]
    rw [show hashedItems (((ts, ep, ev)) :: rest) =
      (ts, ep, (⟨hashChars ((jsonStringifyRaw ev).getD [])⟩ : String)) :: hashedItems rest
      from rfl, hevJson']
    simp only [Option.getD_some]
    rw [List.append_assoc]
    rfl

theorem appendAll_from_none (items : List (String × String × JsValue)) (hne : items ≠ [])
    (hev : ∀ x ∈ items, (jsonStringifyRaw x.2.2).isSome) :
    appendAll none items =
      .ok (some (contentOf (linesOf (chainFrom "GENESIS" (hashedItems items))))) := by
  cases items with
  | nil => exact absurd rfl hne
  | cons x rest =>
    rcases x with ⟨ts, ep, ev⟩
    have hx := hev _ (List.mem_cons_self _ _)
    rw [Option.isSome_iff_exists] at hx
    obtain ⟨evJson, hevJson⟩ := hx
    have hevJson' : jsonStringifyRaw ev = some evJson := hevJson
    show (appendAnchorEntry none ts ep ev).bind (fun r => appendAll (some r.2) rest) = _
    rw [appendAnchorEntry_none_eq ts ep ev evJson hevJson']
    show appendAll (some (contentOf
      (linesOf [⟨ts, ep, ⟨hashChars evJson⟩, "GENESIS"⟩]))) rest = _
    rw [appendAll_existing rest (fun x hx => hev x (List.mem_cons_of_mem _ hx)) _ (by simp)]
    refine congrArg Except.ok (congrArg some (congrArg contentOf (congrArg linesOf ?_)))
    rw [show hashedItems (((ts, ep, ev)) :: rest) =
      (ts, ep, (⟨hashChars ((jsonStringifyRaw ev).getD [])⟩ : String)) :: hashedItems rest
      from rfl, hevJson']
    simp only [Option.getD_some]
    rfl

/-! ## Top-level verification of chained content -/

theorem chainFrom_ne_nil {prev : String} {its : List (String × String × String)}
    (hne : its ≠ []) : chainFrom prev its ≠ [] := by
  intro hc
  have hlen := chainFrom_length prev its
  rw [hc] at hlen
  cases its with
  | nil => exact hne rfl
  | cons y ys => simp at hlen

/-- Verifying the exact content produced by chained appends succeeds with
the full entry count, provided no field of any payload contains a
space. -/
theorem verifyAnchorLog_chainContent (its : List (String × String × String)) (hne : its ≠ [])
    (hsp : ∀ x ∈ its, ' ' ∉ x.1.data ∧ ' ' ∉ x.2.1.data ∧ ' ' ∉ x.2.2.data) :
    verifyAnchorLog (some (contentOf (linesOf (chainFrom "GENESIS" its)))) =
      .ok ⟨true, its.length, none⟩ := by
  show verifyLines
    (splitOnChar '\n' (trimChars (contentOf (linesOf (chainFrom "GENESIS" its))))) 0
    "GENESIS".data = _
  rw [split_trim_contentOf _ (chainFrom_ne_nil hne)]
  have hch := verifyLines_chain its "GENESIS" 0 [] hsp (by decide)
  rw [List.append_nil] at hch
  rw [hch]
  rw [show verifyLines [] (0 + its.length) (endHash "GENESIS" its).data =
    Except.ok ⟨true, 0 + its.length, none⟩ from rfl, Nat.zero_add]

/-- Verifying content whose line at index `pre.length` carries the
original leading hash but an altered payload `p'` (with space-free
fields): verification stops exactly there with `ok = false`, reporting
either the chain-link break or the hash mismatch at that index. -/
theorem verifyAnchorLog_altered (pre postIts : List (String × String × String))
    (ts ep eh : String) (p' : AnchorPayload)
    (hsp : ∀ x ∈ pre, ' ' ∉ x.1.data ∧ ' ' ∉ x.2.1.data ∧ ' ' ∉ x.2.2.data)
    (hp1 : ' ' ∉ p'.ts.data) (hp2 : ' ' ∉ p'.evidence_path.data)
    (hp3 : ' ' ∉ p'.evidence_hash.data) (hp4 : ' ' ∉ p'.prev_hash.data)
    (hne : p' ≠ ⟨ts, ep, eh, endHash "GENESIS" pre⟩) :
    verifyAnchorLog (some (contentOf (
      linesOf (chainFrom "GENESIS" pre) ++
      (hashChars (stringifyPayload ⟨ts, ep, eh, endHash "GENESIS" pre⟩) ++
        ' ' :: stringifyPayload p') ::
      linesOf (chainFrom
        (⟨hashChars (stringifyPayload ⟨ts, ep, eh, endHash "GENESIS" pre⟩)⟩ : String)
        postIts)))) =
      .ok ⟨false, pre.length,
        some (if p'.prev_hash ≠ endHash "GENESIS" pre
          then "Hash chain broken at entry " ++ toString pre.length
          else "Entry hash mismatch at " ++ toString pre.length)⟩ := by
  have hlines : ∀ l ∈ (linesOf (chainFrom "GENESIS" pre) ++
      (hashChars (stringifyPayload ⟨ts, ep, eh, endHash "GENESIS" pre⟩) ++
        ' ' :: stringifyPayload p') ::
      linesOf (chainFrom
        (⟨hashChars (stringifyPayload ⟨ts, ep, eh, endHash "GENESIS" pre⟩)⟩ : String)
        postIts)), LineShaped l := by
    intro l hl
    simp only [List.mem_append, List.mem_cons, linesOf, List.mem_map] at hl
    rcases hl with ⟨p, _, rfl⟩ | he | ⟨p, _, rfl⟩
    · exact lineShaped_lineFor p
    · rw [he]
      exact lineShaped_hashLine _ p'
    · exact lineShaped_lineFor p
  show verifyLines (splitOnChar '\n' (trimChars (contentOf _))) 0 "GENESIS".data = _
  rw [split_trim_contentOf_general _ (by simp) hlines]
  rw [verifyLines_chain pre "GENESIS" 0 _ hsp (by decide)]
  rw [verifyLines_cons_parsed _ (space_not_mem_hashChars _) _
    (space_not_mem_stringifyPayload hp1 hp2 hp3 hp4)]
  simp only [Nat.zero_add]
  by_cases hb : p'.prev_hash.data = (endHash "GENESIS" pre).data
  · have hbs : p'.prev_hash = endHash "GENESIS" pre := String.ext hb
    rw [if_neg (show ¬(p'.prev_hash.data ≠ (endHash "GENESIS" pre).data)
      from fun hcon => hcon hb)]
    have hneq : hashChars (stringifyPayload p') ≠
        hashChars (stringifyPayload ⟨ts, ep, eh, endHash "GENESIS" pre⟩) := by
      intro he
      exact hne (stringifyPayload_inj (hashChars_inj he))
    rw [if_pos hneq, if_neg (show ¬(p'.prev_hash ≠ endHash "GENESIS" pre)
      from fun hcon => hcon hbs)]
  · rw [if_pos hb, if_pos (show p'.prev_hash ≠ endHash "GENESIS" pre
      from fun hs => hb (congrArg String.data hs))]

/-- The chain-link invariant of the constructed payload sequence. -/
theorem chainFrom_get_prev (its : List (String × String × String)) (prev : String) :
    ∀ k (hk : k + 1 < (chainFrom prev its).length),
      ((chainFrom prev its).get ⟨k + 1, hk⟩).prev_hash =
        ⟨hashChars (stringifyPayload ((chainFrom prev its).get ⟨k, Nat.lt_of_succ_lt hk⟩))⟩ := by
  induction its generalizing prev with
  | nil =>
    intro k hk
    simp [chainFrom] at hk
  | cons x rest ih =>
    rcases x with ⟨ts, ep, eh⟩
    intro k hk
    cases k with
    | zero =>
      cases rest with
      | nil => simp [chainFrom] at hk
      | cons y rest' =>
        rcases y with ⟨ts2, ep2, eh2⟩
        rfl
    | succ k =>
      exact ih (⟨hashChars (stringifyPayload ⟨ts, ep, eh, prev⟩)⟩ : String) k
        (by simpa [chainFrom] using hk)

/-- Entry `k`'s line starts with the hash of entry `k`'s payload. -/
theorem chainContent_line_token (ps : List AnchorPayload) (hne : ps ≠ []) :
    ∀ k (hk : k < ps.length),
      (splitOnChar ' '
        ((splitOnChar '\n' (trimChars (contentOf (linesOf ps)))).getD k [])).headD [] =
        hashChars (stringifyPayload (ps.get ⟨k, hk⟩)) := by
  intro k hk
  rw [split_trim_contentOf _ hne]
  have hget : (linesOf ps).getD k [] = lineFor (ps.get ⟨k, hk⟩) := by
    rw [List.getD_eq_getElem?_getD, show linesOf ps = ps.map lineFor from rfl]
    rw [List.getElem?_map]
    rw [show ps[k]? = some (ps.get ⟨k, hk⟩) from by
      rw [List.getElem?_eq_getElem hk]
      rfl]
    rfl
  rw [hget, lineFor_first_token]

/-! ## Anchor-log claim theorems -/

/-- C1 (amended).  Appending `n ≥ 1` entries sequentially to an initially
non-existent log succeeds and produces exactly the chained content; then,
provided no timestamp or evidence path contains a space character (and
every evidence value is JSON-representable, so the appends succeed),
`verifyAnchorLog` returns `ok = true` with `entries = n`, and for every
`k` the `prev_hash` of entry `k+1`'s payload equals the leading hash
token of entry `k`'s line.  Without the no-space proviso the claim fails:
see the counterexample, where `verifyAnchorLog` throws. -/
theorem C1_chain_linkage (items : List (String × String × JsValue)) (hne : items ≠ [])
    (hsp : ∀ x ∈ items, ' ' ∉ x.1.data ∧ ' ' ∉ x.2.1.data)
    (hev : ∀ x ∈ items, (jsonStringifyRaw x.2.2).isSome) :
    appendAll none items =
      .ok (some (contentOf (linesOf (chainFrom "GENESIS" (hashedItems items))))) ∧
    verifyAnchorLog (some (contentOf (linesOf (chainFrom "GENESIS" (hashedItems items))))) =
      .ok ⟨true, items.length, none⟩ ∧
    (∀ k (hk : k + 1 < (chainFrom "GENESIS" (hashedItems items)).length),
      ((chainFrom "GENESIS" (hashedItems items)).get ⟨k + 1, hk⟩).prev_hash.data =
        (splitOnChar ' ' ((splitOnChar '\n' (trimChars (contentOf (linesOf
          (chainFrom "GENESIS" (hashedItems items)))))).getD k [])).headD []) := by
  have hlen : (hashedItems items).length = items.length := by simp [hashedItems]
  have hhne : hashedItems items ≠ [] := by
    cases items with
    | nil => exact absurd rfl hne
    | cons x xs => simp [hashedItems]
  have hsp' : ∀ x ∈ hashedItems items,
      ' ' ∉ x.1.data ∧ ' ' ∉ x.2.1.data ∧ ' ' ∉ x.2.2.data := by
    intro x hx
    simp only [hashedItems, List.mem_map] at hx
    obtain ⟨y, hy, rfl⟩ := hx
    exact ⟨(hsp y hy).1, (hsp y hy).2, space_not_mem_hashChars _⟩
  refine ⟨appendAll_from_none items hne hev, ?_, ?_⟩
  · rw [verifyAnchorLog_chainContent _ hhne hsp', hlen]
  · intro k hk
    rw [chainFrom_get_prev _ _ k hk,
      chainContent_line_token _ (chainFrom_ne_nil hhne) k (Nat.lt_of_succ_lt hk)]

set_option maxRecDepth 100000 in
/-- C1 counterexample: as literally stated — without any restriction on
the evidence path — the claim is false.  Appending one entry whose
evidence path contains a space succeeds, but `verifyAnchorLog` then
throws a `SyntaxError` (the `split(" ", 2)` truncates the JSON part at
the second space, so `JSON.parse` fails) instead of returning
`ok = true, entries = 1`. -/
theorem C1_chain_linkage_cex :
    (appendAll none [("2025-01-01T00:00:00.000Z", "a b", JsValue.null)]).toOption.isSome =
      true ∧
    (match appendAll none [("2025-01-01T00:00:00.000Z", "a b", JsValue.null)] with
      | .ok c => verifyAnchorLog c
      | .error e => .error e) = .error "SyntaxError: Unexpected token in JSON" :=
  ⟨rfl, rfl⟩

/-- Witness for C1 at a one-entry chain with space-free fields. -/
theorem C1_chain_linkage_witness :
    ([("T", "p", JsValue.null)] : List (String × String × JsValue)) ≠ [] ∧
    (appendAll none [("T", "p", JsValue.null)] =
      .ok (some (contentOf (linesOf (chainFrom "GENESIS"
        (hashedItems [("T", "p", JsValue.null)]))))) ∧
    verifyAnchorLog (some (contentOf (linesOf (chainFrom "GENESIS"
        (hashedItems [("T", "p", JsValue.null)]))))) =
      .ok ⟨true, 1, none⟩ ∧
    (∀ k (hk : k + 1 < (chainFrom "GENESIS"
        (hashedItems [("T", "p", JsValue.null)])).length),
      ((chainFrom "GENESIS" (hashedItems [("T", "p", JsValue.null)])).get
          ⟨k + 1, hk⟩).prev_hash.data =
        (splitOnChar ' ' ((splitOnChar '\n' (trimChars (contentOf (linesOf
          (chainFrom "GENESIS"
            (hashedItems [("T", "p", JsValue.null)])))))).getD k [])).headD [])) :=
  ⟨List.cons_ne_nil _ _,
   C1_chain_linkage [("T", "p", JsValue.null)] (List.cons_ne_nil _ _)
     (by decide) (by decide)⟩

/-- C4 (amended).  In a log built by appends (`pre`, then the entry at
index `pre.length`, then any suffix), replacing the payload of the entry
at index `i = pre.length` with a different payload `p'` — keeping the
line's leading hash — makes verification fail exactly at index `i`:
`ok = false`, `entries = i`, and the error names the failing check
("Hash chain broken" when the altered `prev_hash` no longer matches,
otherwise "Entry hash mismatch") and the 0-based index.  The proviso that
`p'`'s fields are space-free is necessary: see the counterexample, where
an altered payload containing a space makes `verifyAnchorLog` throw
instead. -/
theorem C4_corruption_localization (pre postIts : List (String × String × String))
    (ts ep eh : String) (p' : AnchorPayload)
    (hsp : ∀ x ∈ pre, ' ' ∉ x.1.data ∧ ' ' ∉ x.2.1.data ∧ ' ' ∉ x.2.2.data)
    (hp1 : ' ' ∉ p'.ts.data) (hp2 : ' ' ∉ p'.evidence_path.data)
    (hp3 : ' ' ∉ p'.evidence_hash.data) (hp4 : ' ' ∉ p'.prev_hash.data)
    (hne : p' ≠ ⟨ts, ep, eh, endHash "GENESIS" pre⟩) :
    verifyAnchorLog (some (contentOf (
      linesOf (chainFrom "GENESIS" pre) ++
      (hashChars (stringifyPayload ⟨ts, ep, eh, endHash "GENESIS" pre⟩) ++
        ' ' :: stringifyPayload p') ::
      linesOf (chainFrom
        (⟨hashChars (stringifyPayload ⟨ts, ep, eh, endHash "GENESIS" pre⟩)⟩ : String)
        postIts)))) =
      .ok ⟨false, pre.length,
        some (if p'.prev_hash ≠ endHash "GENESIS" pre
          then "Hash chain broken at entry " ++ toString pre.length
          else "Entry hash mismatch at " ++ toString pre.length)⟩ :=
  verifyAnchorLog_altered pre postIts ts ep eh p' hsp hp1 hp2 hp3 hp4 hne

set_option maxRecDepth 100000 in
/-- C4 counterexample: altering a payload in place is not always
reported as a structured failure.  In a valid one-entry log, replacing
the payload's `evidence_path` by `"a b"` (hash not recomputed) makes
`verifyAnchorLog` throw a `SyntaxError` rather than return
`ok = false, entries = 0`. -/
theorem C4_corruption_localization_cex :
    verifyAnchorLog (some (contentOf
      [hashChars (stringifyPayload ⟨"T", "p", ⟨hashChars "null".data⟩, "GENESIS"⟩) ++
        ' ' :: stringifyPayload ⟨"T", "a b", ⟨hashChars "null".data⟩, "GENESIS"⟩])) =
      .error "SyntaxError: Unexpected token in JSON" := rfl

/-- Witness for C4: in a one-entry log, replacing the payload (changed
evidence path, space-free) while keeping the line hash is detected at
index 0. -/
theorem C4_corruption_localization_witness :
    ((⟨"T", "q", "h", "GENESIS"⟩ : AnchorPayload) ≠
      ⟨"T", "p", "h", endHash "GENESIS" []⟩) ∧
    verifyAnchorLog (some (contentOf (
      linesOf (chainFrom "GENESIS" []) ++
      (hashChars (stringifyPayload ⟨"T", "p", "h", endHash "GENESIS" []⟩) ++
        ' ' :: stringifyPayload ⟨"T", "q", "h", "GENESIS"⟩) ::
      linesOf (chainFrom
        (⟨hashChars (stringifyPayload ⟨"T", "p", "h", endHash "GENESIS" []⟩)⟩ : String)
        [])))) =
      .ok ⟨false, ([] : List (String × String × String)).length,
        some (if (⟨"T", "q", "h", "GENESIS"⟩ : AnchorPayload).prev_hash ≠
            endHash "GENESIS" []
          then "Hash chain broken at entry " ++
            toString ([] : List (String × String × String)).length
          else "Entry hash mismatch at " ++
            toString ([] : List (String × String × String)).length)⟩ :=
  ⟨by decide,
   C4_corruption_localization [] [] "T" "p" "h" ⟨"T", "q", "h", "GENESIS"⟩
     (by decide) (by decide) (by decide) (by decide) (by decide) (by decide)⟩

/-- C6 (amended).  Appending to a non-existent log always produces a
single-entry log whose payload's `prev_hash` is `"GENESIS"`; provided
the timestamp and evidence path contain no space, verifying that log
returns `ok = true, entries = 1`.  Without the proviso verification
throws: see the counterexample. -/
theorem C6_chain_genesis (ts ep : String) (ev : JsValue) (evJson : List Char)
    (hev : jsonStringifyRaw ev = some evJson)
    (hts : ' ' ∉ ts.data) (hep : ' ' ∉ ep.data) :
    appendAnchorEntry none ts ep ev =
      .ok (⟨ts, ep, ⟨hashChars evJson⟩, "GENESIS"⟩,
        contentOf (linesOf [⟨ts, ep, ⟨hashChars evJson⟩, "GENESIS"⟩])) ∧
    (⟨ts, ep, ⟨hashChars evJson⟩, "GENESIS"⟩ : AnchorPayload).prev_hash = "GENESIS" ∧
    (splitOnChar '\n' (trimChars (contentOf
      (linesOf [⟨ts, ep, ⟨hashChars evJson⟩, "GENESIS"⟩])))).length = 1 ∧
    verifyAnchorLog (some (contentOf (linesOf [⟨ts, ep, ⟨hashChars evJson⟩, "GENESIS"⟩]))) =
      .ok ⟨true, 1, none⟩ := by
  refine ⟨appendAnchorEntry_none_eq ts ep ev evJson hev, rfl, ?_, ?_⟩
  · rw [split_trim_contentOf _ (by simp)]
    rfl
  · exact verifyAnchorLog_chainContent [(ts, ep, ⟨hashChars evJson⟩)] (by simp)
      (by
        intro x hx
        simp only [List.mem_cons, List.not_mem_nil, or_false] at hx
        subst hx
        exact ⟨hts, hep, space_not_mem_hashChars _⟩)

set_option maxRecDepth 100000 in
/-- C6 counterexample: with an evidence path containing a space, the
append still produces a single entry with `prev_hash = "GENESIS"`, but
`verifyAnchorLog` on the produced log throws instead of returning
`ok = true, entries = 1`. -/
theorem C6_chain_genesis_cex :
    (match appendAnchorEntry none "2025-02-02T00:00:00.000Z" "dir/x y.json" JsValue.null with
      | .ok r => r.1.prev_hash
      | .error _ => "") = "GENESIS" ∧
    (match appendAnchorEntry none "2025-02-02T00:00:00.000Z" "dir/x y.json" JsValue.null with
      | .ok r => verifyAnchorLog (some r.2)
      | .error e => .error e) = .error "SyntaxError: Unexpected token in JSON" :=
  ⟨rfl, rfl⟩

/-- Witness for C6 at a concrete genesis append with space-free
timestamp and path. -/
theorem C6_chain_genesis_witness :
    jsonStringifyRaw JsValue.null = some "null".data ∧
    (appendAnchorEntry none "T" "p" JsValue.null =
      .ok (⟨"T", "p", ⟨hashChars "null".data⟩, "GENESIS"⟩,
        contentOf (linesOf [⟨"T", "p", ⟨hashChars "null".data⟩, "GENESIS"⟩])) ∧
    (⟨"T", "p", ⟨hashChars "null".data⟩, "GENESIS"⟩ : AnchorPayload).prev_hash =
      "GENESIS" ∧
    (splitOnChar '\n' (trimChars (contentOf
      (linesOf [⟨"T", "p", ⟨hashChars "null".data⟩, "GENESIS"⟩])))).length = 1 ∧
    verifyAnchorLog (some (contentOf
        (linesOf [⟨"T", "p", ⟨hashChars "null".data⟩, "GENESIS"⟩]))) =
      .ok ⟨true, 1, none⟩) :=
  ⟨rfl, C6_chain_genesis "T" "p" JsValue.null "null".data rfl (by decide) (by decide)⟩

/-- C10.  `verifyAnchorLog` on an existing but empty log file throws a
`SyntaxError` instead of returning a structured result: the trimmed empty
content splits to a single empty line, `split(" ", 2)` yields no JSON
part, and `JSON.parse(undefined)` raises.  The same happens for a line
containing no space. -/
theorem C10_verify_throws_on_empty :
    verifyAnchorLog (some []) = .error "SyntaxError: \"undefined\" is not valid JSON" ∧
    verifyAnchorLog (some "loneline".data) =
      .error "SyntaxError: \"undefined\" is not valid JSON" :=
  ⟨rfl, rfl⟩

/-! ## Lexicographic order lemmas -/

theorem listLeB_total : ∀ a b : List Char, listLeB a b = true ∨ listLeB b a = true := by
  intro a
  induction a with
  | nil => intro b; left; rfl
  | cons x xs ih =>
    intro b
    cases b with
    | nil => right; rfl
    | cons y ys =>
      unfold listLeB
      rcases Nat.lt_trichotomy x.toNat y.toNat with h | h | h
      · left
        rw [if_pos h]
      · rw [if_neg (by omega), if_neg (by omega), if_neg (by omega), if_neg (by omega)]
        exact ih ys
      · right
        rw [if_pos h]

theorem listLeB_trans : ∀ a b c : List Char,
    listLeB a b = true → listLeB b c = true → listLeB a c = true := by
  intro a
  induction a with
  | nil => intro b c _ _; rfl
  | cons x xs ih =>
    intro b c hab hbc
    cases b with
    | nil => simp [listLeB] at hab
    | cons y ys =>
      cases c with
      | nil => simp [listLeB] at hbc
      | cons z zs =>
        unfold listLeB at hab hbc ⊢
        split_ifs at hab hbc ⊢ with h1 h2 h3 h4 h5 h6 <;>
          first
            | rfl
            | omega
            | exact ih ys zs hab hbc

theorem listLeB_antisymm : ∀ a b : List Char,
    listLeB a b = true → listLeB b a = true → a = b := by
  intro a
  induction a with
  | nil =>
    intro b _ hba
    cases b with
    | nil => rfl
    | cons y ys => simp [listLeB] at hba
  | cons x xs ih =>
    intro b hab hba
    cases b with
    | nil => simp [listLeB] at hab
    | cons y ys =>
      unfold listLeB at hab hba
      split_ifs at hab hba with h1 h2
      · omega
      · have hxy : x = y := char_eq_of_toNat_eq (by omega)
        rw [hxy, ih ys hab hba]

theorem listLtB_asymm : ∀ a b : List Char,
    listLtB a b = true → listLtB b a = true → False := by
  intro a
  induction a with
  | nil =>
    intro b hab hba
    cases b with
    | nil => simp [listLtB] at hab
    | cons y ys => simp [listLtB] at hba
  | cons x xs ih =>
    intro b hab hba
    cases b with
    | nil => simp [listLtB] at hab
    | cons y ys =>
      unfold listLtB at hab hba
      split_ifs at hab hba with h1 h2
      · omega
      · exact ih ys hab hba

theorem listLeB_ne_imp_lt : ∀ a b : List Char,
    listLeB a b = true → a ≠ b → listLtB a b = true := by
  intro a
  induction a with
  | nil =>
    intro b _ hne
    cases b with
    | nil => exact absurd rfl hne
    | cons y ys => rfl
  | cons x xs ih =>
    intro b hab hne
    cases b with
    | nil => simp [listLeB] at hab
    | cons y ys =>
      unfold listLeB at hab
      unfold listLtB
      split_ifs at hab ⊢ with h1 h2
      · rfl
      · have hxy : x = y := char_eq_of_toNat_eq (by omega)
        exact ih ys hab (fun he => hne (by rw [hxy, he]))

instance : IsTotal (String × JsonValue) keyLe :=
  ⟨fun p q => by
    unfold keyLe strLeB
    exact listLeB_total p.1.data q.1.data⟩

instance : IsTrans (String × JsonValue) keyLe :=
  ⟨fun p q r hpq hqr => by
    unfold keyLe strLeB at *
    exact listLeB_trans _ _ _ hpq hqr⟩

instance : IsAntisymm (String × JsonValue) keyLt :=
  ⟨fun p q hpq hqp => by
    unfold keyLt strLtB at hpq hqp
    exact absurd (listLtB_asymm _ _ hpq hqp) (fun h => h)⟩

instance : IsTotal String pinLe :=
  ⟨fun a b => by
    unfold pinLe strLeB
    exact listLeB_total a.data b.data⟩

instance : IsTrans String pinLe :=
  ⟨fun a b c hab hbc => by
    unfold pinLe strLeB at *
    exact listLeB_trans _ _ _ hab hbc⟩

instance : IsAntisymm String pinLe :=
  ⟨fun a b hab hba => by
    unfold pinLe strLeB at hab hba
    exact String.ext (listLeB_antisymm _ _ hab hba)⟩

theorem keyLe_ne_imp_lt {p q : String × JsonValue} (h : keyLe p q) (hne : p.1 ≠ q.1) :
    keyLt p q := by
  unfold keyLe strLeB at h
  unfold keyLt strLtB
  exact listLeB_ne_imp_lt _ _ h (fun he => hne (String.ext he))

theorem normaliseFields_eq_map (kvs : List (String × JsValue)) :
    normaliseFields kvs = kvs.map (fun kv => (kv.1, normalise kv.2)) := by
  induction kvs with
  | nil => rfl
  | cons q qs ih =>
    rcases q with ⟨k, v⟩
    rw [show normaliseFields ((k, v) :: qs) = (k, normalise v) :: normaliseFields qs from rfl,
      ih]
    rfl

theorem normaliseFields_map_fst (kvs : List (String × JsValue)) :
    (normaliseFields kvs).map Prod.fst = kvs.map Prod.fst := by
  rw [normaliseFields_eq_map]
  simp

theorem wfBFields_eq_all (kvs : List (String × JsValue)) :
    wfBFields kvs = kvs.all (fun kv => wfB kv.2) := by
  induction kvs with
  | nil => rfl
  | cons q qs ih =>
    rcases q with ⟨k, v⟩
    rw [show wfBFields ((k, v) :: qs) = (wfB v && wfBFields qs) from rfl, ih]
    rfl

theorem wfBFields_of_perm {l l' : List (String × JsValue)} (hp : l.Perm l')
    (h : wfBFields l' = true) : wfBFields l = true := by
  rw [wfBFields_eq_all] at h ⊢
  rw [List.all_eq_true] at h ⊢
  intro kv hkv
  exact h kv (hp.mem_iff.mp hkv)

theorem keysNodupB_iff (kvs : List (String × JsValue)) :
    keysNodupB kvs = true ↔ (kvs.map Prod.fst).Nodup := by
  induction kvs with
  | nil => simp [keysNodupB]
  | cons q qs ih =>
    rcases q with ⟨k, v⟩
    rw [show keysNodupB ((k, v) :: qs) = (qs.all (fun p => p.1 != k) && keysNodupB qs)
      from rfl]
    simp only [Bool.and_eq_true, List.all_eq_true, List.map_cons, List.nodup_cons, ih,
      List.mem_map]
    constructor
    · rintro ⟨h1, h2⟩
      refine ⟨?_, h2⟩
      rintro ⟨p, hp, rfl⟩
      have := h1 p hp
      simp at this
    · rintro ⟨h1, h2⟩
      refine ⟨?_, h2⟩
      intro p hp
      simp only [bne_iff_ne, ne_eq]
      intro he
      exact h1 ⟨p, hp, he⟩

/-- Insertion sort by key is invariant under permutation of the input,
provided the keys are duplicate-free. -/
theorem insertionSort_keyLe_perm_eq {l l' : List (String × JsonValue)} (hperm : l.Perm l')
    (hnd : (l.map Prod.fst).Nodup) :
    List.insertionSort keyLe l = List.insertionSort keyLe l' := by
  have hsort : ∀ m : List (String × JsonValue), (m.map Prod.fst).Nodup →
      List.Sorted keyLt (List.insertionSort keyLe m) := by
    intro m hm
    have hle : List.Sorted keyLe (List.insertionSort keyLe m) :=
      List.sorted_insertionSort keyLe m
    have hnd' : ((List.insertionSort keyLe m).map Prod.fst).Nodup := by
      have : (List.insertionSort keyLe m).map Prod.fst |>.Perm (m.map Prod.fst) :=
        (List.perm_insertionSort keyLe m).map Prod.fst
      exact this.nodup_iff.mpr hm
    have hpw : List.Pairwise (fun p q : String × JsonValue => p.1 ≠ q.1)
        (List.insertionSort keyLe m) := List.pairwise_map.mp hnd'
    exact List.Pairwise.imp₂ (fun p q hle hne => keyLe_ne_imp_lt hle hne) hle hpw
  have hnd2 : (l'.map Prod.fst).Nodup := ((hperm.map Prod.fst).nodup_iff).mp hnd
  apply List.eq_of_perm_of_sorted (r := keyLt)
  · exact ((List.perm_insertionSort keyLe l).trans hperm).trans
      (List.perm_insertionSort keyLe l').symm
  · exact hsort l hnd
  · exact hsort l' hnd2

theorem koePairs_map_fst : ∀ (ps qs : List (String × JsValue)), KOEPairs ps qs →
    ps.map Prod.fst = qs.map Prod.fst := by
  intro ps
  induction ps with
  | nil =>
    intro qs h
    cases h
    rfl
  | cons p ps ih =>
    intro qs h
    cases h with
    | cons hv hs =>
      rename_i k v w qs'
      show k :: ps.map Prod.fst = k :: qs'.map Prod.fst
      rw [ih qs' hs]

mutual

/-- Key-order-equivalent well-formed values normalise identically. -/
theorem koe_normalise : ∀ {v w : JsValue}, KOE v w →
    wfB v = true → wfB w = true → normalise v = normalise w
  | _, _, .null, _, _ => rfl
  | _, _, .undef, _, _ => rfl
  | _, _, .bool _, _, _ => rfl
  | _, _, .num _, _, _ => rfl
  | _, _, .nan, _, _ => rfl
  | _, _, .inf, _, _ => rfl
  | _, _, .negInf, _, _ => rfl
  | _, _, .str _, _, _ => rfl
  | _, _, .func, _, _ => rfl
  | _, _, .arr hl, hv, hw =>
    congrArg JsonValue.arr (koeList_normalise hl hv hw)
  | _, _, @KOE.obj kvs mid kvs' hpairs hperm, hv, hw => by
    rw [show wfB (.obj kvs) = (keysNodupB kvs && wfBFields kvs) from rfl,
      Bool.and_eq_true] at hv
    rw [show wfB (.obj kvs') = (keysNodupB kvs' && wfBFields kvs') from rfl,
      Bool.and_eq_true] at hw
    obtain ⟨hnd, hfields⟩ := hv
    obtain ⟨hnd', hfields'⟩ := hw
    have hmidwf : wfBFields mid = true := wfBFields_of_perm hperm hfields'
    have heq : normaliseFields kvs = normaliseFields mid :=
      koePairs_normalise hpairs hfields hmidwf
    have hperm2 : (normaliseFields mid).Perm (normaliseFields kvs') := by
      rw [normaliseFields_eq_map, normaliseFields_eq_map]
      exact hperm.map _
    show JsonValue.obj (List.insertionSort keyLe (normaliseFields kvs)) =
      JsonValue.obj (List.insertionSort keyLe (normaliseFields kvs'))
    refine congrArg JsonValue.obj ?_
    rw [heq]
    apply insertionSort_keyLe_perm_eq hperm2
    rw [normaliseFields_map_fst]
    have hkeys : mid.map Prod.fst = kvs.map Prod.fst :=
      (koePairs_map_fst _ _ hpairs).symm
    rw [hkeys]
    exact (keysNodupB_iff kvs).mp hnd

theorem koeList_normalise : ∀ {xs ys : List JsValue}, KOEList xs ys →
    wfBElems xs = true → wfBElems ys = true → normaliseElems xs = normaliseElems ys
  | _, _, .nil, _, _ => rfl
  | _, _, @KOEList.cons x y xs ys h hs, hv, hw => by
    rw [show wfBElems (x :: xs) = (wfB x && wfBElems xs) from rfl, Bool.and_eq_true] at hv
    rw [show wfBElems (y :: ys) = (wfB y && wfBElems ys) from rfl, Bool.and_eq_true] at hw
    show normalise x :: normaliseElems xs = normalise y :: normaliseElems ys
    rw [koe_normalise h hv.1 hw.1, koeList_normalise hs hv.2 hw.2]

theorem koePairs_normalise : ∀ {ps qs : List (String × JsValue)}, KOEPairs ps qs →
    wfBFields ps = true → wfBFields qs = true → normaliseFields ps = normaliseFields qs
  | _, _, .nil, _, _ => rfl
  | _, _, @KOEPairs.cons k v w ps qs h hs, hv, hw => by
    rw [show wfBFields ((k, v) :: ps) = (wfB v && wfBFields ps) from rfl,
      Bool.and_eq_true] at hv
    rw [show wfBFields ((k, w) :: qs) = (wfB w && wfBFields qs) from rfl,
      Bool.and_eq_true] at hw
    show (k, normalise v) :: normaliseFields ps = (k, normalise w) :: normaliseFields qs
    rw [koe_normalise h hv.1 hw.1, koePairs_normalise hs hv.2 hw.2]

end

/-! ## Seal lemmas -/

theorem setProp_of_not_mem {kvs : List (String × JsValue)} {k : String} (v : JsValue)
    (hk : ∀ p ∈ kvs, p.1 ≠ k) : setProp kvs k v = kvs ++ [(k, v)] := by
  unfold setProp
  rw [if_neg]
  simp only [List.any_eq_true, not_exists, not_and]
  intro p hp hbeq
  exact hk p hp (by simpa using hbeq)

theorem getProp_obj_append_last {k : String} (v : JsValue) :
    ∀ (kvs : List (String × JsValue)), (∀ p ∈ kvs, p.1 ≠ k) →
      getProp (.obj (kvs ++ [(k, v)])) k = some v := by
  intro kvs
  induction kvs with
  | nil =>
    intro _
    rw [show getProp (.obj ([] ++ [(k, v)])) k =
      (([(k, v)] : List (String × JsValue)).find? (fun p => p.1 == k)).map
        (fun p => p.2) from rfl]
    simp
  | cons q qs ih =>
    intro hk
    rw [show getProp (.obj ((q :: qs) ++ [(k, v)])) k =
      ((q :: (qs ++ [(k, v)])).find? (fun p => p.1 == k)).map (fun p => p.2) from rfl]
    rw [List.find?_cons_of_neg _ (by
      have := hk q (List.mem_cons_self q qs)
      simp [this])]
    rw [show ((qs ++ [(k, v)]).find? (fun p => p.1 == k)).map (fun p => p.2) =
      getProp (.obj (qs ++ [(k, v)])) k from rfl]
    exact ih (fun p hp => hk p (List.mem_cons_of_mem q hp))

theorem removeProp_append_self {kvs : List (String × JsValue)} {k : String} (v : JsValue)
    (hk : ∀ p ∈ kvs, p.1 ≠ k) : removeProp (kvs ++ [(k, v)]) k = kvs := by
  unfold removeProp
  rw [List.filter_append]
  rw [List.filter_eq_self.mpr (by
    intro p hp
    have := hk p hp
    simp [this])]
  simp

theorem stringifyJson_obj_ne_nil (kvs : List (String × JsonValue)) :
    stringifyJson (.obj kvs) ≠ [] := by
  rw [show stringifyJson (.obj kvs) =
    '{' :: List.intercalate [','] (stringifyJsonMembers kvs) ++ ['}'] from rfl]
  simp

theorem computeEvidenceDigest_obj_ne_empty (kvs : List (String × JsValue)) :
    computeEvidenceDigest (.obj kvs) ≠ "" := by
  intro h
  have hd := congrArg String.data h
  have : hashChars (stringifyJson (normalise (.obj kvs))) = [] := hd
  rcases hs : stringifyJson (normalise (.obj kvs)) with _ | ⟨c, cs⟩
  · exact stringifyJson_obj_ne_nil _ (by
      rw [show normalise (.obj kvs) = .obj (List.insertionSort keyLe
        (normaliseFields kvs)) from rfl] at hs
      exact hs)
  · rw [hs] at this
    exact hashChars_nonempty (by simp) this

/-! ## Seal claim theorems -/

/-- C2 (amended).  For a plain-object evidence body `b` (a JavaScript
object: duplicate-free keys) with no pre-existing `seal` key, and any
input digest, previous digest and chain index, verifying the sealed
object succeeds: `ok = true` and the stored and recomputed evidence
digests agree.  As literally stated — for *every* evidence body — the
claim is false: non-object bodies are spread into `{}` by `attachSeal`,
so verification recomputes a different digest (see the counterexample);
bodies already carrying a `seal` key fail as well (claim C9). -/
theorem C2_seal_roundtrip (kvs : List (String × JsValue)) (d : String)
    (prev : Option String) (ci : Option Int)
    (hk : ∀ p ∈ kvs, p.1 ≠ "seal") :
    (verifyEvidenceObject (attachSeal (.obj kvs) d prev ci)).ok = true ∧
    (verifyEvidenceObject (attachSeal (.obj kvs) d prev ci)).expected =
      .str (verifyEvidenceObject (attachSeal (.obj kvs) d prev ci)).actual := by
  have hatt : attachSeal (.obj kvs) d prev ci =
      .obj (kvs ++ [("seal", sealRecord d (computeEvidenceDigest (.obj kvs)) prev
        (ci.getD 1))]) := by
    unfold attachSeal
    simp only
    rw [show ownProps (.obj kvs) = kvs from rfl, setProp_of_not_mem _ hk]
  rw [hatt]
  unfold verifyEvidenceObject
  rw [if_neg (by simp [truthy, typeofObject])]
  rw [getProp_obj_append_last _ kvs hk]
  simp only
  rw [if_neg (by simp [truthy, sealRecord])]
  rw [if_neg (by
    rw [show getProp (sealRecord d (computeEvidenceDigest (.obj kvs)) prev (ci.getD 1))
      "algorithm" = some (.str "sha256") from rfl]
    simp [strictEqString])]
  rw [if_neg (by
    rw [show getProp (sealRecord d (computeEvidenceDigest (.obj kvs)) prev (ci.getD 1))
      "evidence_digest" = some (.str (computeEvidenceDigest (.obj kvs))) from rfl]
    simp only [jsFalsyOpt, truthy, Bool.not_eq_true', Bool.not_eq_false]
    simp only [bne_iff_ne, ne_eq, decide_not]
    simp [computeEvidenceDigest_obj_ne_empty kvs])]
  simp only
  rw [show ownProps (.obj (kvs ++ [("seal", sealRecord d (computeEvidenceDigest (.obj kvs))
    prev (ci.getD 1))])) = kvs ++ [("seal", sealRecord d (computeEvidenceDigest (.obj kvs))
    prev (ci.getD 1))] from rfl]
  rw [removeProp_append_self _ hk]
  rw [show getProp (sealRecord d (computeEvidenceDigest (.obj kvs)) prev (ci.getD 1))
    "evidence_digest" = some (.str (computeEvidenceDigest (.obj kvs))) from rfl]
  constructor
  · simp [strictEqString]
  · rfl

/-- C2 counterexample: the round trip fails for a non-object body.
`attachSeal` stores the digest of `42` but spreads the body into `{}`,
so verification recomputes the digest of `{}` and reports a mismatch. -/
theorem C2_seal_roundtrip_cex :
    (verifyEvidenceObject (attachSeal (.num 42) "d" none none)).ok = false := rfl

/-- Witness for C2 at a concrete one-field object body. -/
theorem C2_seal_roundtrip_witness :
    (∀ p ∈ ([("a", JsValue.num 1)] : List (String × JsValue)), p.1 ≠ "seal") ∧
    ((verifyEvidenceObject (attachSeal (.obj [("a", JsValue.num 1)]) "d" none none)).ok =
      true ∧
    (verifyEvidenceObject (attachSeal (.obj [("a", JsValue.num 1)]) "d" none none)).expected =
      .str (verifyEvidenceObject (attachSeal (.obj [("a", JsValue.num 1)]) "d" none
        none)).actual) :=
  ⟨by decide, C2_seal_roundtrip [("a", JsValue.num 1)] "d" none none (by decide)⟩

/-- C9.  The seal round trip does not extend to bodies that already
contain a `seal` key: for the body `{a: 1, seal: "old"}`, `attachSeal`
computes the stored digest over the body *including* its old `seal`
field, while `verifyEvidenceObject` recomputes the digest with the
(replaced) `seal` field removed, so verification fails. -/
theorem C9_preexisting_seal :
    (verifyEvidenceObject (attachSeal
      (.obj [("a", .num 1), ("seal", .str "old")]) "d" none none)).ok = false ∧
    (verifyEvidenceObject (attachSeal
      (.obj [("a", .num 1), ("seal", .str "old")]) "d" none none)).expected =
      .str (computeEvidenceDigest (.obj [("a", .num 1), ("seal", .str "old")])) ∧
    (verifyEvidenceObject (attachSeal
      (.obj [("a", .num 1), ("seal", .str "old")]) "d" none none)).actual =
      computeEvidenceDigest (.obj [("a", .num 1)]) :=
  ⟨rfl, rfl, rfl⟩

/-- C7.  `verifyEvidenceObject` is a total function returning a
structured result in every malformed case (the embedding is total by
construction, mirroring the absence of any throwing operation in the
source): non-object input, missing `seal`, falsy `seal`, algorithm tag
other than `"sha256"`, and empty `evidence_digest` all yield the
structured `{ok := false}` record, and a digest mismatch yields
`ok = false` with the differing stored and recomputed digests. -/
theorem C7_verify_structured :
    (∀ e : JsValue, truthy e = false ∨ typeofObject e = false →
      verifyEvidenceObject e = ⟨false, .str "", ""⟩) ∧
    (∀ e : JsValue, truthy e = true → typeofObject e = true →
      getProp e "seal" = none → verifyEvidenceObject e = ⟨false, .str "", ""⟩) ∧
    (∀ (e s : JsValue), truthy e = true → typeofObject e = true →
      getProp e "seal" = some s → truthy s = false →
      verifyEvidenceObject e = ⟨false, .str "", ""⟩) ∧
    (∀ (e s : JsValue), truthy e = true → typeofObject e = true →
      getProp e "seal" = some s → truthy s = true →
      strictEqString (getProp s "algorithm") "sha256" = false →
      verifyEvidenceObject e = ⟨false, .str "", ""⟩) ∧
    (∀ (e s : JsValue), truthy e = true → typeofObject e = true →
      getProp e "seal" = some s → truthy s = true →
      strictEqString (getProp s "algorithm") "sha256" = true →
      getProp s "evidence_digest" = some (.str "") →
      verifyEvidenceObject e = ⟨false, .str "", ""⟩) ∧
    (∀ (e s : JsValue) (dd : String), truthy e = true → typeofObject e = true →
      getProp e "seal" = some s → truthy s = true →
      strictEqString (getProp s "algorithm") "sha256" = true →
      getProp s "evidence_digest" = some (.str dd) → dd ≠ "" →
      dd ≠ computeEvidenceDigest (.obj (removeProp (ownProps e) "seal")) →
      verifyEvidenceObject e =
        ⟨false, .str dd, computeEvidenceDigest (.obj (removeProp (ownProps e) "seal"))⟩ ∧
      (verifyEvidenceObject e).expected ≠ .str (verifyEvidenceObject e).actual) := by
  refine ⟨?_, ?_, ?_, ?_, ?_, ?_⟩
  · intro e h
    unfold verifyEvidenceObject
    rcases h with h | h <;> rw [if_pos (by simp [h])]
  · intro e h1 h2 hseal
    unfold verifyEvidenceObject
    rw [if_neg (by simp [h1, h2]), hseal]
  · intro e s h1 h2 hseal hs
    unfold verifyEvidenceObject
    rw [if_neg (by simp [h1, h2]), hseal]
    simp only
    rw [if_pos (by simp [hs])]
  · intro e s h1 h2 hseal hs halg
    unfold verifyEvidenceObject
    rw [if_neg (by simp [h1, h2]), hseal]
    simp only
    rw [if_neg (by simp [hs]), if_pos (by simp [halg])]
  · intro e s h1 h2 hseal hs halg hdig
    unfold verifyEvidenceObject
    rw [if_neg (by simp [h1, h2]), hseal]
    simp only
    rw [if_neg (by simp [hs])]
    rw [if_neg (by simp [halg])]
    rw [if_pos (show jsFalsyOpt (getProp s "evidence_digest") = true by
      rw [hdig]
      simp [jsFalsyOpt, truthy])]
  · intro e s dd h1 h2 hseal hs halg hdig hdd hne
    have hres : verifyEvidenceObject e =
        ⟨false, .str dd, computeEvidenceDigest (.obj (removeProp (ownProps e) "seal"))⟩ := by
      unfold verifyEvidenceObject
      rw [if_neg (by simp [h1, h2]), hseal]
      simp only
      rw [if_neg (by simp [hs])]
      rw [if_neg (by simp [halg])]
      rw [if_neg (show ¬(jsFalsyOpt (getProp s "evidence_digest") = true) by
        rw [hdig]
        simp [jsFalsyOpt, truthy, hdd])]
      rw [hdig]
      simp only [Option.getD_some]
      rw [show strictEqString (some (.str dd))
        (computeEvidenceDigest (.obj (removeProp (ownProps e) "seal"))) =
          (dd == computeEvidenceDigest (.obj (removeProp (ownProps e) "seal"))) from rfl]
      rw [beq_eq_false_iff_ne.mpr hne]
    refine ⟨hres, ?_⟩
    rw [hres]
    intro hcon
    simp only [SealVerifyResult.expected, SealVerifyResult.actual] at hcon
    exact hne (JsValue.str.inj hcon)

set_option maxRecDepth 100000 in
/-- Witness for C7 at two concrete inputs: a non-object input and a
sealed object whose stored digest mismatches the recomputed one. -/
theorem C7_verify_structured_witness :
    truthy JsValue.null = false ∧
    verifyEvidenceObject JsValue.null = ⟨false, .str "", ""⟩ ∧
    ("x" : String) ≠ computeEvidenceDigest (.obj (removeProp (ownProps
      (JsValue.obj [("a", .num 1), ("seal", .obj [("algorithm", .str "sha256"),
        ("evidence_digest", .str "x")])])) "seal")) ∧
    verifyEvidenceObject (JsValue.obj [("a", .num 1),
        ("seal", .obj [("algorithm", .str "sha256"), ("evidence_digest", .str "x")])]) =
      ⟨false, .str "x", computeEvidenceDigest (.obj (removeProp (ownProps
        (JsValue.obj [("a", .num 1), ("seal", .obj [("algorithm", .str "sha256"),
          ("evidence_digest", .str "x")])])) "seal"))⟩ :=
  ⟨rfl, C7_verify_structured.1 JsValue.null (Or.inl rfl), by decide,
   (C7_verify_structured.2.2.2.2.2
     (JsValue.obj [("a", .num 1),
       ("seal", .obj [("algorithm", .str "sha256"), ("evidence_digest", .str "x")])])
     (.obj [("algorithm", .str "sha256"), ("evidence_digest", .str "x")]) "x"
     rfl rfl rfl rfl (by decide) rfl (by decide) (by decide)).1⟩

/-- C3: canonicalisation determinism of `canonicalJson` in `src/seal.ts`.
Two well-formed values that are deeply equal modulo mapping-key order
produce byte-identical canonical output; the members of a normalised
mapping are in (lexicographically) sorted key order; sequence order is
preserved elementwise; non-finite numbers (`NaN`, `±Infinity`) and values
not representable in JSON (`undefined`, functions) normalise to `null`. -/
theorem C3_canonicalization_determinism :
    (∀ v w : JsValue, KOE v w → wfB v = true → wfB w = true →
      canonicalJson v = canonicalJson w) ∧
    (∀ kvs : List (String × JsValue),
      List.Sorted keyLe (objFields (normalise (.obj kvs)))) ∧
    (∀ (x : JsValue) (xs : List JsValue),
      normalise (.arr (x :: xs)) = .arr (normalise x :: normaliseElems xs)) ∧
    canonicalJson .nan = "null" ∧ canonicalJson .inf = "null" ∧
    canonicalJson .negInf = "null" ∧ canonicalJson .undef = "null" ∧
    canonicalJson .func = "null" := by
  refine ⟨?_, ?_, fun x xs => rfl, rfl, rfl, rfl, rfl, rfl⟩
  · intro v w hkoe hv hw
    show (⟨stringifyJson (normalise v)⟩ : String) = ⟨stringifyJson (normalise w)⟩
    rw [koe_normalise hkoe hv hw]
  · intro kvs
    show List.Sorted keyLe
      (objFields (JsonValue.obj (List.insertionSort keyLe (normaliseFields kvs))))
    exact List.sorted_insertionSort keyLe _

/-- Witness for C3: two concrete objects with the same fields inserted in
opposite orders canonicalise identically. -/
theorem C3_canonicalization_determinism_witness :
    canonicalJson (.obj [("b", .num 2), ("a", .num 1)]) =
      canonicalJson (.obj [("a", .num 1), ("b", .num 2)]) :=
  C3_canonicalization_determinism.1 _ _
    (KOE.obj (KOEPairs.cons (KOE.num 2) (KOEPairs.cons (KOE.num 1) KOEPairs.nil))
      (List.Perm.swap ("a", JsValue.num 1) ("b", JsValue.num 2) []))
    (by decide) (by decide)

set_option maxRecDepth 100000 in
/-- Counterexample to C5: `appendAnchorEntry` hashes the plain
`JSON.stringify` output, not the canonical serialisation.  For the
evidence `{b: 2, a: 1}` the payload's `evidence_hash` differs from the
digest of the canonical serialisation, and the key-order-equal evidence
`{a: 1, b: 2}` yields a different `evidence_hash`. -/
theorem C5_canonical_hash_cex :
    ((appendAnchorEntry none "T" "p" (.obj [("b", .num 2), ("a", .num 1)])).toOption.map
        (fun r => r.1.evidence_hash) ≠
      some (sha256Hex (canonicalJson (.obj [("b", .num 2), ("a", .num 1)])))) ∧
    ((appendAnchorEntry none "T" "p" (.obj [("b", .num 2), ("a", .num 1)])).toOption.map
        (fun r => r.1.evidence_hash) ≠
      (appendAnchorEntry none "T" "p" (.obj [("a", .num 1), ("b", .num 2)])).toOption.map
        (fun r => r.1.evidence_hash)) := by
  exact ⟨by decide, by decide⟩

/-- C5 (amended): `appendAnchorEntry` computes the payload's
`evidence_hash` as the digest of the plain `JSON.stringify` serialisation
of the evidence (insertion order, no canonicalisation), and the entry's
leading hash token as the digest of `JSON.stringify(payload)`; two
evidence values with identical plain serialisations therefore share their
`evidence_hash`. -/
theorem C5_hash_of_raw_stringify (fileContent : Option (List Char)) (ts ep : String)
    (ev ev' : JsValue) (evJson : List Char)
    (hev : jsonStringifyRaw ev = some evJson) :
    (∃ p : AnchorPayload,
      appendAnchorEntry fileContent ts ep ev =
        .ok (p, (fileContent.getD []) ++
          (hashChars (stringifyPayload p) ++ ' ' :: stringifyPayload p) ++ ['\n']) ∧
      p.evidence_hash = sha256Hex ⟨evJson⟩ ∧ p.ts = ts ∧ p.evidence_path = ep) ∧
    (jsonStringifyRaw ev' = some evJson →
      (appendAnchorEntry fileContent ts ep ev').toOption.map
          (fun r => r.1.evidence_hash) =
        (appendAnchorEntry fileContent ts ep ev).toOption.map
          (fun r => r.1.evidence_hash)) := by
  constructor
  · refine ⟨⟨ts, ep, ⟨hashChars evJson⟩,
      match fileContent with
      | none => "GENESIS"
      | some content =>
        ⟨(splitOnChar ' ' ((splitOnChar '\n' (trimChars content)).getLastD [])).headD []⟩⟩,
      ?_, rfl, rfl, rfl⟩
    unfold appendAnchorEntry
    rw [hev]
  · intro hev'
    unfold appendAnchorEntry
    rw [hev, hev']

set_option maxRecDepth 100000 in
/-- Witness for C5 (amended) at the concrete evidence `{b: 2}` appended
to a fresh log. -/
theorem C5_hash_of_raw_stringify_witness :
    ∃ p : AnchorPayload,
      appendAnchorEntry none "T" "p" (.obj [("b", .num 2)]) =
        .ok (p, ((none : Option (List Char)).getD []) ++
          (hashChars (stringifyPayload p) ++ ' ' :: stringifyPayload p) ++ ['\n']) ∧
      p.evidence_hash = sha256Hex ⟨"\x7b\"b\":2\x7d".data⟩ ∧
      p.ts = "T" ∧ p.evidence_path = "p" :=
  (C5_hash_of_raw_stringify none "T" "p" (.obj [("b", .num 2)]) (.obj [("b", .num 2)])
    "\x7b\"b\":2\x7d".data rfl).1

theorem intercalate_one (sep x : List Char) : List.intercalate sep [x] = x := by
  simp [List.intercalate]

theorem intercalate_two (sep x y : List Char) (zs : List (List Char)) :
    List.intercalate sep (x :: y :: zs) = x ++ sep ++ List.intercalate sep (y :: zs) := by
  simp [List.intercalate, List.intersperse]

theorem intercalate_cons_head (x : List Char) (xs : List (List Char)) :
    ∃ Y, List.intercalate [','] (x :: xs) = x ++ Y := by
  cases xs with
  | nil => exact ⟨[], by simp [List.intercalate]⟩
  | cons y ys =>
    refine ⟨[','] ++ List.intercalate [','] (y :: ys), ?_⟩
    rw [intercalate_two, List.append_assoc]

theorem normaliseElems_strs (l : List String) :
    normaliseElems (l.map JsValue.str) = l.map JsonValue.str := by
  induction l with
  | nil => rfl
  | cons s t ih =>
    show JsonValue.str s :: normaliseElems (t.map JsValue.str) = _
    rw [ih]
    rfl

theorem stringifyJsonElems_strs (l : List String) :
    stringifyJsonElems (l.map JsonValue.str) = l.map (fun s => quoteChars s.data) := by
  induction l with
  | nil => rfl
  | cons s t ih =>
    show quoteChars s.data :: stringifyJsonElems (t.map JsonValue.str) = _
    rw [ih]
    rfl

theorem stringifyJson_optStr (o : Option String) :
    stringifyJson (normalise (optStrOrNull o)) = optChars o := by
  cases o <;> rfl

theorem stringifyJson_boolVal (b : Bool) :
    stringifyJson (.bool b) = boolChars b := by
  cases b <;> rfl

set_option maxRecDepth 100000 in
set_option maxHeartbeats 800000 in
theorem normalise_inputObj (i : InputDigestIntent) :
    normalise (inputObj i) = inputObjNorm i := rfl

theorem stringify_inputObjNorm (i : InputDigestIntent) :
    stringifyJson (inputObjNorm i) = inputPayloadChars i := by
  show '{' :: (List.intercalate [','] [
      quoteChars "engine".data ++ ':' :: quoteChars i.engine.data,
      quoteChars "expectedPins".data ++ ':' ::
        ('[' :: List.intercalate [',']
          (stringifyJsonElems (normaliseElems ((sortedPins i).map JsValue.str))) ++ [']']),
      quoteChars "mode".data ++ ':' :: quoteChars i.mode.data,
      quoteChars "org".data ++ ':' :: quoteChars i.org.data,
      quoteChars "profileReadme".data ++ ':' ::
        ('{' :: List.intercalate [','] [
          quoteChars "path".data ++ ':' ::
            stringifyJson (normalise (optStrOrNull i.profileReadmePath)),
          quoteChars "repo".data ++ ':' ::
            stringifyJson (normalise (optStrOrNull i.profileReadmeRepo)),
          quoteChars "required".data ++ ':' ::
            stringifyJson (.bool i.profileReadmeRequired)] ++ ['}']),
      quoteChars "version".data ++ ':' :: quoteChars i.version.data] ++ ['}'])
    = inputPayloadChars i
  rw [normaliseElems_strs, stringifyJsonElems_strs, stringifyJson_optStr,
    stringifyJson_optStr, stringifyJson_boolVal]
  rfl

theorem canonicalJson_inputObj (i : InputDigestIntent) :
    (canonicalJson (inputObj i)).data = inputPayloadChars i := by
  show stringifyJson (normalise (inputObj i)) = inputPayloadChars i
  rw [normalise_inputObj]
  exact stringify_inputObjNorm i

theorem parseStrArrAux_roundtrip :
    ∀ (P : List String) (fuel : Nat) (rest : List Char), P ≠ [] → P.length ≤ fuel →
    parseStrArrAux fuel
      (List.intercalate [','] (P.map (fun s => quoteChars s.data)) ++ ']' :: rest) =
      some (P, rest) := by
  intro P
  induction P with
  | nil => intro fuel rest h _; exact absurd rfl h
  | cons p P' ih =>
    intro fuel rest _ hlen
    cases fuel with
    | zero => simp at hlen
    | succ f =>
      cases P' with
      | nil =>
        rw [show ([p].map (fun s => quoteChars s.data)) = [quoteChars p.data] from rfl,
          intercalate_one]
        simp only [parseStrArrAux, parseStrTok_quoteChars]
      | cons q Q =>
        rw [show ((p :: q :: Q).map (fun s => quoteChars s.data)) =
            quoteChars p.data :: quoteChars q.data :: Q.map (fun s => quoteChars s.data)
            from rfl,
          intercalate_two, List.append_assoc, List.append_assoc]
        rw [show (([','] : List Char) ++
            (List.intercalate [','] (quoteChars q.data :: Q.map (fun s => quoteChars s.data)) ++
              ']' :: rest)) =
          ',' :: (List.intercalate [','] (quoteChars q.data :: Q.map (fun s => quoteChars s.data)) ++
              ']' :: rest) from rfl]
        simp only [parseStrArrAux, parseStrTok_quoteChars]
        rw [show List.intercalate [','] (quoteChars q.data :: Q.map (fun s => quoteChars s.data)) =
          List.intercalate [','] ((q :: Q).map (fun s => quoteChars s.data)) from rfl]
        rw [ih f rest (by simp) (by simp at hlen ⊢; omega)]

theorem strArrChars_append_inj {P1 P2 : List String} {r1 r2 : List Char}
    (h : strArrChars P1 ++ r1 = strArrChars P2 ++ r2) : P1 = P2 ∧ r1 = r2 := by
  have h' : List.intercalate [','] (P1.map (fun s => quoteChars s.data)) ++ ']' :: r1 =
      List.intercalate [','] (P2.map (fun s => quoteChars s.data)) ++ ']' :: r2 := by
    have h2 : '[' ::
        (List.intercalate [','] (P1.map (fun s => quoteChars s.data)) ++ ']' :: r1) =
        '[' :: (List.intercalate [','] (P2.map (fun s => quoteChars s.data)) ++ ']' :: r2) := by
      simpa [strArrChars, List.append_assoc] using h
    exact (List.cons.inj h2).2
  cases P1 with
  | nil =>
    cases P2 with
    | nil =>
      refine ⟨rfl, ?_⟩
      simpa [List.intercalate] using h'
    | cons q Q =>
      exfalso
      obtain ⟨Y, hY⟩ :=
        intercalate_cons_head (quoteChars q.data) (Q.map (fun s => quoteChars s.data))
      rw [show List.intercalate [','] ((q :: Q).map (fun s => quoteChars s.data)) =
        List.intercalate [','] (quoteChars q.data :: Q.map (fun s => quoteChars s.data))
        from rfl, hY] at h'
      simp [quoteChars, List.intercalate] at h'
  | cons p P1' =>
    cases P2 with
    | nil =>
      exfalso
      obtain ⟨Y, hY⟩ :=
        intercalate_cons_head (quoteChars p.data) (P1'.map (fun s => quoteChars s.data))
      rw [show List.intercalate [','] ((p :: P1').map (fun s => quoteChars s.data)) =
        List.intercalate [','] (quoteChars p.data :: P1'.map (fun s => quoteChars s.data))
        from rfl, hY] at h'
      simp [quoteChars, List.intercalate] at h'
    | cons q Q2 =>
      have e1 := parseStrArrAux_roundtrip (p :: P1')
        ((p :: P1').length + (q :: Q2).length) r1 (by simp) (Nat.le_add_right _ _)
      have e2 := parseStrArrAux_roundtrip (q :: Q2)
        ((p :: P1').length + (q :: Q2).length) r2 (by simp) (Nat.le_add_left _ _)
      rw [h', e2] at e1
      have hp := Option.some.inj e1
      exact ⟨(congrArg Prod.fst hp).symm, (congrArg Prod.snd hp).symm⟩

theorem optChars_append_inj {o1 o2 : Option String} {r1 r2 : List Char}
    (h : optChars o1 ++ r1 = optChars o2 ++ r2) : o1 = o2 ∧ r1 = r2 := by
  cases o1 with
  | none =>
    cases o2 with
    | none => exact ⟨rfl, List.append_cancel_left h⟩
    | some b =>
      have h' : 'n' :: 'u' :: 'l' :: 'l' :: r1 =
          '"' :: ((escFrag b.data ++ ['"']) ++ r2) := h
      exact absurd (List.cons.inj h').1 (by decide)
  | some a =>
    cases o2 with
    | none =>
      have h' : '"' :: ((escFrag a.data ++ ['"']) ++ r1) =
          'n' :: 'u' :: 'l' :: 'l' :: r2 := h
      exact absurd (List.cons.inj h').1 (by decide)
    | some b =>
      have h' : quoteChars a.data ++ r1 = quoteChars b.data ++ r2 := h
      obtain ⟨hab, hr⟩ := quoteChars_append_inj h'
      exact ⟨congrArg some (String.ext hab), hr⟩

theorem boolChars_append_inj {b1 b2 : Bool} {r1 r2 : List Char}
    (h : boolChars b1 ++ r1 = boolChars b2 ++ r2) : b1 = b2 ∧ r1 = r2 := by
  cases b1 <;> cases b2
  · exact ⟨rfl, List.append_cancel_left h⟩
  · have h' : 'f' :: 'a' :: 'l' :: 's' :: 'e' :: r1 = 't' :: 'r' :: 'u' :: 'e' :: r2 := h
    exact absurd (List.cons.inj h').1 (by decide)
  · have h' : 't' :: 'r' :: 'u' :: 'e' :: r1 = 'f' :: 'a' :: 'l' :: 's' :: 'e' :: r2 := h
    exact absurd (List.cons.inj h').1 (by decide)
  · exact ⟨rfl, List.append_cancel_left h⟩

set_option maxRecDepth 10000 in
set_option maxHeartbeats 1600000 in
/-- C8: input-digest stability of `computeInputDigest` in `src/seal.ts`.
Two intents produce the same digest exactly when they agree on every
field, with the expected-pin arrays compared as multisets (any order);
in particular the digest is invariant under permutation of
`expectedPins`, and changing any one field changes the digest. -/
theorem C8_input_digest_stability (i1 i2 : InputDigestIntent) :
    computeInputDigest i1 = computeInputDigest i2 ↔
      (i1.engine = i2.engine ∧ i1.version = i2.version ∧ i1.org = i2.org ∧
       i1.mode = i2.mode ∧ i1.expectedPins.Perm i2.expectedPins ∧
       i1.profileReadmeRequired = i2.profileReadmeRequired ∧
       i1.profileReadmeRepo = i2.profileReadmeRepo ∧
       i1.profileReadmePath = i2.profileReadmePath) := by
  constructor
  · intro hdig
    have hcanon : canonicalJson (inputObj i1) = canonicalJson (inputObj i2) :=
      sha256Hex_inj hdig
    have hchars : inputPayloadChars i1 = inputPayloadChars i2 := by
      rw [← canonicalJson_inputObj i1, ← canonicalJson_inputObj i2, hcanon]
    unfold inputPayloadChars at hchars
    simp only [intercalate_two, intercalate_one, List.append_assoc, List.cons_append,
      List.singleton_append, List.nil_append] at hchars
    have d1 := (List.cons.inj hchars).2
    have d2 := List.append_cancel_left d1
    have d3 := (List.cons.inj d2).2
    obtain ⟨he, d4⟩ := quoteChars_append_inj d3
    have d5 := (List.cons.inj d4).2
    have d6 := List.append_cancel_left d5
    have d7 := (List.cons.inj d6).2
    obtain ⟨hpins, d8⟩ := strArrChars_append_inj d7
    have d9 := (List.cons.inj d8).2
    have d10 := List.append_cancel_left d9
    have d11 := (List.cons.inj d10).2
    obtain ⟨hm, d12⟩ := quoteChars_append_inj d11
    have d13 := (List.cons.inj d12).2
    have d14 := List.append_cancel_left d13
    have d15 := (List.cons.inj d14).2
    obtain ⟨ho, d16⟩ := quoteChars_append_inj d15
    have d17 := (List.cons.inj d16).2
    have d18 := List.append_cancel_left d17
    have d19 := (List.cons.inj d18).2
    have d20 := (List.cons.inj d19).2
    have d21 := List.append_cancel_left d20
    have d22 := (List.cons.inj d21).2
    obtain ⟨hpath, d23⟩ := optChars_append_inj d22
    have d24 := (List.cons.inj d23).2
    have d25 := List.append_cancel_left d24
    have d26 := (List.cons.inj d25).2
    obtain ⟨hrepo, d27⟩ := optChars_append_inj d26
    have d28 := (List.cons.inj d27).2
    have d29 := List.append_cancel_left d28
    have d30 := (List.cons.inj d29).2
    obtain ⟨hreq, d31⟩ := boolChars_append_inj d30
    have d32 := (List.cons.inj d31).2
    have d33 := (List.cons.inj d32).2
    have d34 := List.append_cancel_left d33
    have d35 := (List.cons.inj d34).2
    obtain ⟨hv, _⟩ := quoteChars_append_inj d35
    have hperm : i1.expectedPins.Perm i2.expectedPins := by
      have hp2 : List.Perm (sortedPins i1) i2.expectedPins := by
        rw [hpins]
        exact List.perm_insertionSort pinLe i2.expectedPins
      exact (List.perm_insertionSort pinLe i1.expectedPins).symm.trans hp2
    exact ⟨String.ext he, String.ext hv, String.ext ho, String.ext hm, hperm,
      hreq, hrepo, hpath⟩
  · rintro ⟨he, hv, ho, hm, hperm, hreq, hrepo, hpath⟩
    have hsp : sortedPins i1 = sortedPins i2 := by
      refine List.eq_of_perm_of_sorted ?_
        (List.sorted_insertionSort pinLe _) (List.sorted_insertionSort pinLe _)
      exact ((List.perm_insertionSort pinLe i1.expectedPins).trans hperm).trans
        (List.perm_insertionSort pinLe i2.expectedPins).symm
    have hobj : inputObj i1 = inputObj i2 := by
      unfold inputObj
      rw [he, hv, ho, hm, hreq, hrepo, hpath, hsp]
    exact congrArg (fun o => sha256Hex (canonicalJson o)) hobj

/-- Witness for C8: permuting the expected pins leaves the digest
unchanged on a concrete intent. -/
theorem C8_input_digest_stability_witness :
    computeInputDigest ⟨"e", "v", "o", "m", ["b", "a"], true, none, none⟩ =
      computeInputDigest ⟨"e", "v", "o", "m", ["a", "b"], true, none, none⟩ :=
  (C8_input_digest_stability ⟨"e", "v", "o", "m", ["b", "a"], true, none, none⟩
      ⟨"e", "v", "o", "m", ["a", "b"], true, none, none⟩).mpr
    ⟨rfl, rfl, rfl, rfl, List.Perm.swap "a" "b" [], rfl, rfl, rfl⟩

end WfslGuard
